import Mathlib

/-!
Verification of the optics composition engine of the `lenses` library
(`lenses/optics/base.py`, `lenses/optics/traversals.py`,
`lenses/optics/prisms.py`, `lenses/optics/true_lenses.py`,
`lenses/hooks/hook_funcs.py`, `lenses/typeclass.py`, `lenses/maybe.py`,
`lenses/const.py`, `lenses/identity.py`).

The embedding works over a universe `PyVal` of the Python values the engine
manipulates.  Fallible Python code (raised exceptions) is modelled with
`Except PErr`.  Python `dict`s are modelled as insertion-ordered association
lists, `set`s as duplicate-free lists in iteration order, `str` as lists of
characters.  Structural equality on `PyVal` corresponds to Python `==` on
this universe (for dicts Python `==` additionally ignores insertion order;
every equation proved below already has both sides in the same order).
-/

namespace Lenses

/-- Python exceptions, by class only (messages are not modelled). -/
inductive PErr where
  | typeError : PErr
  | valueError : PErr
  | keyError : PErr
  | notImplementedError : PErr
  | assertionError : PErr
  | runtimeError : PErr
  deriving DecidableEq, Repr

/-- The universe of Python values the claims exercise: `None`, `int`, `str`
(as its list of characters), `bytes`, `list`, `tuple`, `dict` (as an
insertion-ordered association list), `set` (as a duplicate-free list in
iteration order) and `lenses.maybe` objects (`Just`/`Nothing`). -/
inductive PyVal where
  | pnone : PyVal
  | pint : Int → PyVal
  | pstr : List Char → PyVal
  | pbytes : List Nat → PyVal
  | plist : List PyVal → PyVal
  | ptuple : List PyVal → PyVal
  | pdict : List (PyVal × PyVal) → PyVal
  | pset : List PyVal → PyVal
  | pmaybe : Option PyVal → PyVal
  deriving Repr

namespace PyVal

mutual

def decEqV : (a b : PyVal) → Decidable (a = b)
  | pnone, pnone => isTrue rfl
  | pint a, pint b =>
      if h : a = b then isTrue (by rw [h]) else isFalse (by simp [h])
  | pstr a, pstr b =>
      if h : a = b then isTrue (by rw [h]) else isFalse (by simp [h])
  | pbytes a, pbytes b =>
      if h : a = b then isTrue (by rw [h]) else isFalse (by simp [h])
  | plist a, plist b =>
      match decEqL a b with
      | isTrue h => isTrue (by rw [h])
      | isFalse h => isFalse (by simp [h])
  | ptuple a, ptuple b =>
      match decEqL a b with
      | isTrue h => isTrue (by rw [h])
      | isFalse h => isFalse (by simp [h])
  | pdict a, pdict b =>
      match decEqP a b with
      | isTrue h => isTrue (by rw [h])
      | isFalse h => isFalse (by simp [h])
  | pset a, pset b =>
      match decEqL a b with
      | isTrue h => isTrue (by rw [h])
      | isFalse h => isFalse (by simp [h])
  | pmaybe a, pmaybe b =>
      match decEqO a b with
      | isTrue h => isTrue (by rw [h])
      | isFalse h => isFalse (by simp [h])
  | pnone, pint _ => isFalse nofun
  | pnone, pstr _ => isFalse nofun
  | pnone, pbytes _ => isFalse nofun
  | pnone, plist _ => isFalse nofun
  | pnone, ptuple _ => isFalse nofun
  | pnone, pdict _ => isFalse nofun
  | pnone, pset _ => isFalse nofun
  | pnone, pmaybe _ => isFalse nofun
  | pint _, pnone => isFalse nofun
  | pint _, pstr _ => isFalse nofun
  | pint _, pbytes _ => isFalse nofun
  | pint _, plist _ => isFalse nofun
  | pint _, ptuple _ => isFalse nofun
  | pint _, pdict _ => isFalse nofun
  | pint _, pset _ => isFalse nofun
  | pint _, pmaybe _ => isFalse nofun
  | pstr _, pnone => isFalse nofun
  | pstr _, pint _ => isFalse nofun
  | pstr _, pbytes _ => isFalse nofun
  | pstr _, plist _ => isFalse nofun
  | pstr _, ptuple _ => isFalse nofun
  | pstr _, pdict _ => isFalse nofun
  | pstr _, pset _ => isFalse nofun
  | pstr _, pmaybe _ => isFalse nofun
  | pbytes _, pnone => isFalse nofun
  | pbytes _, pint _ => isFalse nofun
  | pbytes _, pstr _ => isFalse nofun
  | pbytes _, plist _ => isFalse nofun
  | pbytes _, ptuple _ => isFalse nofun
  | pbytes _, pdict _ => isFalse nofun
  | pbytes _, pset _ => isFalse nofun
  | pbytes _, pmaybe _ => isFalse nofun
  | plist _, pnone => isFalse nofun
  | plist _, pint _ => isFalse nofun
  | plist _, pstr _ => isFalse nofun
  | plist _, pbytes _ => isFalse nofun
  | plist _, ptuple _ => isFalse nofun
  | plist _, pdict _ => isFalse nofun
  | plist _, pset _ => isFalse nofun
  | plist _, pmaybe _ => isFalse nofun
  | ptuple _, pnone => isFalse nofun
  | ptuple _, pint _ => isFalse nofun
  | ptuple _, pstr _ => isFalse nofun
  | ptuple _, pbytes _ => isFalse nofun
  | ptuple _, plist _ => isFalse nofun
  | ptuple _, pdict _ => isFalse nofun
  | ptuple _, pset _ => isFalse nofun
  | ptuple _, pmaybe _ => isFalse nofun
  | pdict _, pnone => isFalse nofun
  | pdict _, pint _ => isFalse nofun
  | pdict _, pstr _ => isFalse nofun
  | pdict _, pbytes _ => isFalse nofun
  | pdict _, plist _ => isFalse nofun
  | pdict _, ptuple _ => isFalse nofun
  | pdict _, pset _ => isFalse nofun
  | pdict _, pmaybe _ => isFalse nofun
  | pset _, pnone => isFalse nofun
  | pset _, pint _ => isFalse nofun
  | pset _, pstr _ => isFalse nofun
  | pset _, pbytes _ => isFalse nofun
  | pset _, plist _ => isFalse nofun
  | pset _, ptuple _ => isFalse nofun
  | pset _, pdict _ => isFalse nofun
  | pset _, pmaybe _ => isFalse nofun
  | pmaybe _, pnone => isFalse nofun
  | pmaybe _, pint _ => isFalse nofun
  | pmaybe _, pstr _ => isFalse nofun
  | pmaybe _, pbytes _ => isFalse nofun
  | pmaybe _, plist _ => isFalse nofun
  | pmaybe _, ptuple _ => isFalse nofun
  | pmaybe _, pdict _ => isFalse nofun
  | pmaybe _, pset _ => isFalse nofun
termination_by structural a => a

def decEqL : (a b : List PyVal) → Decidable (a = b)
  | [], [] => isTrue rfl
  | [], _ :: _ => isFalse nofun
  | _ :: _, [] => isFalse nofun
  | x :: xs, y :: ys =>
      match decEqV x y, decEqL xs ys with
      | isTrue h1, isTrue h2 => isTrue (by rw [h1, h2])
      | isFalse h1, _ => isFalse (by simp [h1])
      | _, isFalse h2 => isFalse (by simp [h2])
termination_by structural a => a

def decEqP : (a b : List (PyVal × PyVal)) → Decidable (a = b)
  | [], [] => isTrue rfl
  | [], _ :: _ => isFalse nofun
  | _ :: _, [] => isFalse nofun
  | (k1, v1) :: xs, (k2, v2) :: ys =>
      match decEqV k1 k2, decEqV v1 v2, decEqP xs ys with
      | isTrue h1, isTrue h2, isTrue h3 => isTrue (by rw [h1, h2, h3])
      | isFalse h1, _, _ => isFalse (by simp [h1])
      | _, isFalse h2, _ => isFalse (by simp [h2])
      | _, _, isFalse h3 => isFalse (by simp [h3])
termination_by structural a => a

def decEqO : (a b : Option PyVal) → Decidable (a = b)
  | none, none => isTrue rfl
  | none, some _ => isFalse nofun
  | some _, none => isFalse nofun
  | some x, some y =>
      match decEqV x y with
      | isTrue h => isTrue (by rw [h])
      | isFalse h => isFalse (by simp [h])
termination_by structural a => a

end

instance : DecidableEq PyVal := decEqV

/-- Python truthiness (`bool(v)`): zero numbers and empty collections are
falsy; `Just`/`Nothing` objects define neither `__bool__` nor `__len__` and
are always truthy. -/
def truthy : PyVal → Bool
  | pnone => false
  | pint n => n ≠ 0
  | pstr cs => cs ≠ []
  | pbytes bs => bs ≠ []
  | plist xs => xs ≠ []
  | ptuple xs => xs ≠ []
  | pdict ps => ps ≠ []
  | pset xs => xs ≠ []
  | pmaybe _ => true

end PyVal

open PyVal

/-! ### Association-list primitives for the `dict` model -/

/-- The keys of a dict, in insertion order. -/
def keysOf (ps : List (PyVal × PyVal)) : List PyVal := ps.map Prod.fst

/-- `d[k]` lookup: value of the first entry with key `k`. -/
def lookupA (ps : List (PyVal × PyVal)) (k : PyVal) : Option PyVal :=
  match ps with
  | [] => none
  | (k', v) :: rest => if k' = k then some v else lookupA rest k

/-- `d[k] = v`: replace the value at the first entry with key `k`, keeping
its position, or append a new entry. -/
def assocSet (ps : List (PyVal × PyVal)) (k : PyVal) (v : PyVal) :
    List (PyVal × PyVal) :=
  match ps with
  | [] => [(k, v)]
  | (k', v') :: rest =>
      if k' = k then (k', v) :: rest else (k', v') :: assocSet rest k v

/-- `del d[k]`: drop every entry with key `k` (a Python dict holds at most
one). -/
def removeKey (ps : List (PyVal × PyVal)) (k : PyVal) :
    List (PyVal × PyVal) :=
  ps.filter (fun p => p.1 ≠ k)

/-- A Python dict never holds two entries with the same key. -/
def NodupKeys (ps : List (PyVal × PyVal)) : Prop := (keysOf ps).Nodup

instance (ps : List (PyVal × PyVal)) : Decidable (NodupKeys ps) := by
  unfold NodupKeys; infer_instance

/-- `d.update(items)`: apply `assocSet` for each item in order. -/
def pyUpdate (ps : List (PyVal × PyVal)) (items : List (PyVal × PyVal)) :
    List (PyVal × PyVal) :=
  items.foldl (fun acc p => assocSet acc p.1 p.2) ps

/-- `set(iterable)`: the distinct elements, first occurrence order. -/
def dedupFirst : List PyVal → List PyVal
  | [] => []
  | x :: xs => x :: (dedupFirst xs).filter (fun y => y ≠ x)

/-- Python subscription `v[i]` by a non-negative integer index, for the
sequence types (`dict` subscription looks the integer up as a key). -/
def subscript : PyVal → Nat → Except PErr PyVal
  | plist xs, i => match xs.get? i with
    | some x => .ok x
    | none => .error .keyError
  | ptuple xs, i => match xs.get? i with
    | some x => .ok x
    | none => .error .keyError
  | pstr cs, i => match cs.get? i with
    | some c => .ok (pstr [c])
    | none => .error .keyError
  | pbytes bs, i => match bs.get? i with
    | some b => .ok (pint b)
    | none => .error .keyError
  | pdict ps, i => match lookupA ps (pint i) with
    | some v => .ok v
    | none => .error .keyError
  | _, _ => .error .typeError


/-- Sequential effectful map over a list (Python evaluates the mapped
function on every element left to right, stopping at the first raise). -/
def exMapM {A B : Type} (f : A → Except PErr B) : List A → Except PErr (List B)
  | [] => .ok []
  | x :: xs => do
      let y ← f x
      let ys ← exMapM f xs
      .ok (y :: ys)

/-- Sequential effectful left fold (the `Const.apply` chain of
`multiap`). -/
def exFoldlM {A : Type} (mapp : A → A → Except PErr A) (a : A) :
    List A → Except PErr A
  | [] => .ok a
  | x :: xs => do
      let w ← mapp a x
      exFoldlM mapp w xs

@[simp]
theorem exBind_ok {A B : Type} (a : A) (f : A → Except PErr B) :
    (Except.ok a >>= f) = f a := rfl

@[simp]
theorem exBind_ok_right {A : Type} (m : Except PErr A) :
    (m >>= fun a => Except.ok a) = m := by cases m <;> rfl

@[simp]
theorem exBind_error {A B : Type} (e : PErr) (f : A → Except PErr B) :
    ((Except.error e : Except PErr A) >>= f) = .error e := rfl

@[simp]
theorem exPure_eq_ok {A : Type} (a : A) :
    (pure a : Except PErr A) = .ok a := rfl

@[simp]
theorem exMapM_nil {A B : Type} (f : A → Except PErr B) :
    exMapM f [] = .ok [] := rfl

@[simp]
theorem exMapM_cons {A B : Type} (f : A → Except PErr B) (x : A)
    (xs : List A) :
    exMapM f (x :: xs) =
      (do
        let y ← f x
        let ys ← exMapM f xs
        .ok (y :: ys)) := rfl

/-! ### `lenses/typeclass.py`: the monoid used by `view`

`mappend` defaults to `a + b` and has dedicated implementations registered
for `tuple` (element-wise, lengths must agree) and `dict` (copy-and-update
merge).  The `singledispatch` bodies assume a second argument of the same
type; mismatched or unsupported operands raise.  Addition of `Just`/`Nothing`
functor cargo (`maybe.py`) is modelled separately by `maybeAdd` below, where
the engine actually uses it. -/

mutual

def mappend : PyVal → PyVal → Except PErr PyVal
  | pint a, pint b => .ok (pint (a + b))
  | pstr a, pstr b => .ok (pstr (a ++ b))
  | pbytes a, pbytes b => .ok (pbytes (a ++ b))
  | plist a, plist b => .ok (plist (a ++ b))
  | ptuple a, ptuple b =>
      if a.length = b.length then do
        let zs ← mappendZip a b
        .ok (ptuple zs)
      else .error .valueError
  | pdict a, pdict b => .ok (pdict (pyUpdate (pyUpdate [] a) b))
  | _, _ => .error .typeError
termination_by structural a => a

def mappendZip : List PyVal → List PyVal → Except PErr (List PyVal)
  | [], _ => .ok []
  | _ :: _, [] => .ok []
  | x :: xs, y :: ys => do
      let z ← mappend x y
      let zs ← mappendZip xs ys
      .ok (z :: zs)
termination_by structural a => a

end

/-! ### `lenses/hooks/hook_funcs.py`: `to_iter` and `from_iter` -/

/-- `hooks.to_iter`: iteration order of a state.  Dictionaries iterate by
their items; `Just`/`Nothing` yield their contents (`maybe.py` registers a
`from_iter` hook and `__iter__`); non-iterable values raise `TypeError`. -/
def to_iter : PyVal → Except PErr (List PyVal)
  | pdict ps => .ok (ps.map fun p => ptuple [p.1, p.2])
  | plist xs => .ok xs
  | ptuple xs => .ok xs
  | pset xs => .ok xs
  | pstr cs => .ok (cs.map fun c => pstr [c])
  | pbytes bs => .ok (bs.map fun b => pint (Int.ofNat b))
  | pmaybe (some x) => .ok [x]
  | pmaybe none => .ok []
  | pnone => .error .typeError
  | pint _ => .error .typeError

/-- `str.join` element check: elements must be strings. -/
def strOfVal : PyVal → Except PErr (List Char)
  | pstr cs => .ok cs
  | _ => .error .typeError

/-- `bytes(...)` element check: elements must be ints in byte range. -/
def byteOfVal : PyVal → Except PErr Nat
  | pint i =>
      if 0 ≤ i ∧ i < 256 then .ok i.toNat else .error .valueError
  | _ => .error .typeError

/-- A `dict.update` element must be a key-value sequence of length two. -/
def asPair : PyVal → Except PErr (PyVal × PyVal)
  | ptuple [k, v] => .ok (k, v)
  | plist [k, v] => .ok (k, v)
  | _ => .error .valueError

/-- `hooks.from_iter`: rebuild a state of the first argument's type from
replacement elements.  `dict` copies-clears-updates, `str` joins (elements
must be strings), `bytes` checks the byte range, `set` collects distinct
elements, `Just` takes the first element if any; types without a registered
hook raise `NotImplementedError`. -/
def from_iter : PyVal → List PyVal → Except PErr PyVal
  | pdict _, vs => do
      let pairs ← exMapM asPair vs
      .ok (pdict (pyUpdate [] pairs))
  | plist _, vs => .ok (plist vs)
  | ptuple _, vs => .ok (ptuple vs)
  | pset _, vs => .ok (pset (dedupFirst vs))
  | pstr _, vs => do
      let css ← exMapM strOfVal vs
      .ok (pstr css.flatten)
  | pbytes _, vs => do
      let bs ← exMapM byteOfVal vs
      .ok (pbytes bs)
  | pmaybe _, vs => .ok (pmaybe vs.head?)
  | pnone, _ => .error .notImplementedError
  | pint _, _ => .error .notImplementedError

/-! ### The kind lattice (`LensLike` subclassing in `optics/base.py`) -/

/-- The nine optic kinds. -/
inductive OpticKind where
  | equality
  | isomorphism
  | prism
  | review
  | lens
  | traversal
  | getter
  | setter
  | fold
  deriving DecidableEq, Repr, Fintype

/-- `isinstance` on the `LensLike` class hierarchy: `subkind a b` holds when
an instance of class `a` is an instance of class `b` (Equality <
Isomorphism < Lens < Getter < Fold, Isomorphism < Prism < Review,
Prism < Traversal < Setter, Traversal < Fold, Lens < Traversal). -/
def subkind : OpticKind → OpticKind → Bool
  | .equality, _ => true
  | .isomorphism, c => c ≠ .equality
  | .prism, c =>
      c = .prism || c = .review || c = .traversal || c = .setter || c = .fold
  | .review, c => c = .review
  | .lens, c =>
      c = .lens || c = .getter || c = .traversal || c = .setter || c = .fold
  | .traversal, c => c = .traversal || c = .setter || c = .fold
  | .getter, c => c = .getter || c = .fold
  | .setter, c => c = .setter
  | .fold, c => c = .fold

/-! ### Symbolic optics for the composition engine (claims about kinds)

For the composition/kind claims an optic is abstracted to the `LensLike`
class its primitive constructor subclasses, plus a flag for the
`TrivialIso` identity optic (which `ComposedLens._filter_lenses` elides by
exact type).  A `ComposedLens` is the flat list of its non-trivial
primitive sub-optics. -/

/-- A primitive (non-composed) optic: its most derived library class,
abstracted to the kind it subclasses, and whether it is exactly
`TrivialIso`. -/
structure Prim where
  cls : OpticKind
  trivial : Bool
  deriving DecidableEq, Repr

/-- The `TrivialIso()` optic: an `Isomorphism` subclass. -/
def trivialPrim : Prim := ⟨.isomorphism, true⟩

/-- An optic as seen by the composition engine: a primitive, or a
`ComposedLens` holding a flat list of primitives. -/
inductive KOptic where
  | single : Prim → KOptic
  | composed : List Prim → KOptic
  deriving DecidableEq, Repr

namespace KOptic

/-- `Prim._is_kind(cls)` is `isinstance`. -/
def isKindP (p : Prim) (c : OpticKind) : Bool := subkind p.cls c

/-- `LensLike._is_kind` / `ComposedLens._is_kind`: a composed optic is of a
kind exactly when all its sub-optics are. -/
def isKind : KOptic → OpticKind → Bool
  | single p, c => isKindP p c
  | composed ps, c => ps.all (fun p => isKindP p c)

/-- The probe order of `LensLike.kind()`. -/
def kindOrder : List OpticKind :=
  [.equality, .isomorphism, .prism, .review, .lens, .traversal, .getter,
   .setter, .fold]

/-- `LensLike.kind()` of a composed list: the first kind in probe order
that every member satisfies. -/
def kindOfList (ps : List Prim) : Option OpticKind :=
  kindOrder.find? (fun c => ps.all (fun p => isKindP p c))

/-- `LensLike.kind()`. -/
def kindOf : KOptic → Option OpticKind
  | single p => kindOrder.find? (fun c => isKindP p c)
  | composed ps => kindOfList ps

/-- `ComposedLens._filter_lenses` applied to one optic: flatten composed
optics and drop `TrivialIso`. -/
def filterL : KOptic → List Prim
  | single p => if p.trivial then [] else [p]
  | composed ps => ps

/-- `LensLike.compose` / `ComposedLens.compose` (the `&` operator):
concatenate the filtered sub-optic lists; an empty result is the trivial
iso, a singleton collapses to its only member, and a genuinely composed
result must have a valid kind or `RuntimeError` is raised at composition
time. -/
def composeK (a b : KOptic) : Except PErr KOptic :=
  match filterL a ++ filterL b with
  | [] => .ok (single trivialPrim)
  | [l] => .ok (single l)
  | l1 :: l2 :: rest =>
      if kindOfList (l1 :: l2 :: rest) = none then .error .runtimeError
      else .ok (composed (l1 :: l2 :: rest))

/-- Well-formedness of the symbolic optics: only `TrivialIso` carries the
trivial flag, and a `ComposedLens` reachable through `compose` holds at
least two non-trivial primitives and has a valid kind. -/
def WF : KOptic → Prop
  | single p => p.trivial = true → p.cls = .isomorphism
  | composed ps =>
      2 ≤ ps.length ∧ (∀ p ∈ ps, p.trivial = false) ∧ kindOfList ps ≠ none

end KOptic

/-! ### Functional optics (`LensLike.func` and the public operations)

An optic is embedded by the data its constructor closes over; `func` is a
van Laarhoven transformer polymorphic in the applicative functor, so the
three functors the public operations instantiate it at are evaluated by
three specialised evaluators:

* `constFunc` for `Const`-carried payloads (`preview` carries
  `Just`/`Nothing` cargo, `to_list_of` carries list cargo); `Const.map`
  discards its function and `Const.apply` combines cargo with the cargo
  monoid, so only the payloads of the leaf results remain;
* `identityFunc` for the `Identity` functor (`over`/`set`).

`ComposedLens.func` pipes `f` through the member optics from the right
(`Functorisor.update` keeps the same `pure` at every level), so a binary
`comp` tree evaluates exactly like the flat list. -/

inductive Optic where
  | fold (folder : PyVal → Except PErr (List PyVal))
  | getter (g : PyVal → Except PErr PyVal)
  | traversal (folder : PyVal → Except PErr (List PyVal))
      (builder : PyVal → List PyVal → Except PErr PyVal)
  | lens (g : PyVal → Except PErr PyVal)
      (st : PyVal → PyVal → Except PErr PyVal)
  | review (pack : PyVal → Except PErr PyVal)
  | prism (unpack : PyVal → Except PErr (Option PyVal))
      (pack : PyVal → Except PErr PyVal)
  | iso (fwd : PyVal → Except PErr PyVal) (bwd : PyVal → Except PErr PyVal)
  | comp (o₁ o₂ : Optic)

namespace Optic

/-- `LensLike._is_kind` over the functional optics: `isinstance` of the
constructor's class for primitives, conjunction over members for
compositions. -/
def isKind : Optic → OpticKind → Bool
  | fold _, c => subkind .fold c
  | getter _, c => subkind .getter c
  | traversal _ _, c => subkind .traversal c
  | lens _ _, c => subkind .lens c
  | review _, c => subkind .review c
  | prism _ _, c => subkind .prism c
  | iso _ _, c => subkind .isomorphism c
  | comp a b, c => a.isKind c && b.isKind c

end Optic

/-- `Const` cargo combination for `preview`: `Just.__add__` from
`maybe.py` — `Nothing` is the neutral element, two `Just`s append their
contents with the `typeclass.mappend` monoid. -/
def maybeAdd (a b : Option PyVal) : Except PErr (Option PyVal) :=
  match a, b with
  | none, b => .ok b
  | some x, none => .ok (some x)
  | some x, some y => do
      let z ← mappend x y
      .ok (some z)

/-- `Const` cargo combination for `to_list_of`: list concatenation. -/
def listAppend (a b : List PyVal) : Except PErr (List PyVal) :=
  .ok (a ++ b)

/-- Evaluate `LensLike.func` under a `Const` functor with cargo type `α`,
cargo monoid `mapp` and per-focus cargo `f`; `pure0` is the cargo the
short-circuiting `pure` wraps.  `Fold.func`/`Traversal.func` list the foci,
short-circuit on none, and otherwise apply `f` to each focus in order
(`map(f, foci)` is forced before `multiap` runs) and fold the cargo
left-to-right (`Const.apply` appends the accumulated cargo on the left);
`Traversal.func`'s final `fmap` of the builder vanishes on `Const`.
`Getter.func`/`Lens.func`/`Isomorphism.func` feed the single focus to `f`;
`Prism.func` short-circuits when `unpack` fails; a bare `Review` has no
`func` (`NotImplementedError`). -/
def constFunc {α : Type} (mapp : α → α → Except PErr α) (pure0 : PyVal → α)
    (f : PyVal → Except PErr α) : Optic → PyVal → Except PErr α
  | .fold folder, s => do
      match (← folder s) with
      | [] => pure (pure0 s)
      | x :: xs => do
          let fx ← f x
          let fxs ← exMapM f xs
          exFoldlM mapp fx fxs
  | .getter g, s => do f (← g s)
  | .traversal folder _, s => do
      match (← folder s) with
      | [] => pure (pure0 s)
      | x :: xs => do
          let fx ← f x
          let fxs ← exMapM f xs
          exFoldlM mapp fx fxs
  | .lens g _, s => do f (← g s)
  | .review _, _ => .error .notImplementedError
  | .prism unpack _, s => do
      match (← unpack s) with
      | none => pure (pure0 s)
      | some x => f x
  | .iso fwd _, s => do f (← fwd s)
  | .comp a b, s => constFunc mapp pure0 (fun x => constFunc mapp pure0 f b x) a s

/-- Evaluate `LensLike.func` under the `Identity` functor with per-focus
transform `f` (`over` uses `Identity ∘ fn`, `set` a constant).  The
`collect_args`/`multiap` pipeline applies `f` to every focus in order and
hands the tuple of results to the builder; `Fold.func` has no builder, so
its identity-functor result is the bare argument tuple; `Prism.func`
short-circuits to the unchanged state via `pure`. -/
def identityFunc (f : PyVal → Except PErr PyVal) :
    Optic → PyVal → Except PErr PyVal
  | .fold folder, s => do
      match (← folder s) with
      | [] => pure s
      | x :: xs => do
          let vs ← exMapM f (x :: xs)
          pure (ptuple vs)
  | .getter g, s => do f (← g s)
  | .traversal folder builder, s => do
      match (← folder s) with
      | [] => pure s
      | x :: xs => do
          let vs ← exMapM f (x :: xs)
          builder s vs
  | .lens g st, s => do
      let old ← g s
      let new ← f old
      st s new
  | .review _, _ => .error .notImplementedError
  | .prism unpack pack, s => do
      match (← unpack s) with
      | none => pure s
      | some x => do pack (← f x)
  | .iso fwd bwd, s => do bwd (← f (← fwd s))
  | .comp a b, s => identityFunc (fun x => identityFunc f b x) a s

/-- `LensLike.preview`: `Const` cargo `Just focus`, short-circuit cargo
`Nothing`; requires kind Fold (`TypeError` otherwise). -/
def preview (o : Optic) (s : PyVal) : Except PErr (Option PyVal) :=
  if o.isKind .fold then
    constFunc maybeAdd (fun _ => none) (fun a => .ok (some a)) o s
  else .error .typeError

/-- `LensLike.view`: `preview`, then raise `ValueError` on a missing
focus; requires kind Fold. -/
def view (o : Optic) (s : PyVal) : Except PErr PyVal :=
  if o.isKind .fold then
    match preview o s with
    | .ok (some v) => .ok v
    | .ok none => .error .valueError
    | .error e => .error e
  else .error .typeError

/-- `LensLike.to_list_of`: `Const` cargo `[focus]`, short-circuit cargo
`[]`; requires kind Fold. -/
def to_list_of (o : Optic) (s : PyVal) : Except PErr (List PyVal) :=
  if o.isKind .fold then
    constFunc listAppend (fun _ => []) (fun a => .ok [a]) o s
  else .error .typeError

/-- `LensLike.over`: `Identity` functor around `fn`; requires kind Setter. -/
def over (o : Optic) (s : PyVal) (fn : PyVal → PyVal) : Except PErr PyVal :=
  if o.isKind .setter then identityFunc (fun a => .ok (fn a)) o s
  else .error .typeError

/-- `LensLike.set`: `Identity` functor around a constant; requires kind
Setter. -/
def set (o : Optic) (s : PyVal) (v : PyVal) : Except PErr PyVal :=
  if o.isKind .setter then identityFunc (fun _ => .ok v) o s
  else .error .typeError

/-! ### Concrete optics used by the claims -/

/-- `EachTraversal` (`optics/traversals.py`): folder `hooks.to_iter`,
builder `hooks.from_iter`. -/
def eachTraversal : Optic := .traversal to_iter from_iter

/-- `FilteringPrism(predicate)` (`optics/prisms.py`): `unpack` succeeds
with the whole state exactly when the predicate holds of it, `pack` is the
identity. -/
def filteringPrism (pred : PyVal → Bool) : Optic :=
  .prism (fun s => .ok (if pred s then some s else none)) (fun x => .ok x)

/-- `ItemLens(key).getter` (`true_lenses.py`): the `(key, state[key])`
pair, or `None` when the key is absent (`KeyError` is caught).  Modelled
for mapping states; the claims only apply it to dicts. -/
def itemGetter (k : PyVal) : PyVal → Except PErr PyVal
  | pdict d =>
      match lookupA d k with
      | some v => .ok (ptuple [k, v])
      | none => .ok pnone
  | _ => .error .typeError

/-- `ItemLens(key).setter`: on focus `None` delete the key; otherwise
`focus[0]`/`focus[1]` give the new item, the old key is deleted first when
the new key differs (rename), and the new item is stored. -/
def itemSetter (k : PyVal) : PyVal → PyVal → Except PErr PyVal
  | pdict d, focus =>
      match focus with
      | pnone =>
          if lookupA d k = none then .error .keyError
          else .ok (pdict (removeKey d k))
      | _ => do
          let k' ← subscript focus 0
          let v' ← subscript focus 1
          if k' = k then .ok (pdict (assocSet d k' v'))
          else if lookupA d k = none then .error .keyError
          else .ok (pdict (assocSet (removeKey d k) k' v'))
  | _, _ => .error .typeError

/-- `ItemLens(key)`: a `Lens` focusing one key-value pair of a dict. -/
def itemLens (k : PyVal) : Optic := .lens (itemGetter k) (itemSetter k)

/-- `ItemByValueLens(value).getter`: the first `(key, value)` item of the
dict whose value equals `value`, or `None` (the loop falls through). -/
def itemByValueGetter (v : PyVal) : PyVal → Except PErr PyVal
  | pdict d =>
      match d.find? (fun p => p.2 = v) with
      | some p => .ok (ptuple [p.1, p.2])
      | none => .ok pnone
  | _ => .error .typeError

/-- `ItemByValueLens(value).setter`: delete every key whose value equals
`value` (iterating the old state's items), then store `focus[0] →
focus[1]` unless the focus is `None`. -/
def itemByValueSetter (v : PyVal) : PyVal → PyVal → Except PErr PyVal
  | pdict d, focus => do
      let d' := d.foldl
        (fun acc p => if p.2 = v then removeKey acc p.1 else acc) d
      match focus with
      | pnone => .ok (pdict d')
      | _ => do
          let k' ← subscript focus 0
          let v' ← subscript focus 1
          .ok (pdict (assocSet d' k' v'))
  | _, _ => .error .typeError

/-- `ItemByValueLens(value)`: a `Lens` focusing one key-value pair of a
dict found by its value. -/
def itemByValueLens (v : PyVal) : Optic :=
  .lens (itemByValueGetter v) (itemByValueSetter v)

/-! ### Facts about the kind lattice -/

namespace KOptic

theorem subkind_refl (c : OpticKind) : subkind c c = true := by
  cases c <;> rfl

theorem subkind_equality_eq (c : OpticKind) (h : subkind c .equality = true) :
    c = .equality := by
  cases c <;> first | rfl | exact absurd h (by decide)

theorem subkind_equality_iso (c : OpticKind) (h : subkind c .equality = true) :
    subkind c .isomorphism = true := by
  cases c <;> first | rfl | exact absurd h (by decide)

theorem subkind_prism_traversal (c : OpticKind)
    (h : subkind c .prism = true) : subkind c .traversal = true := by
  cases c <;> first | rfl | exact absurd h (by decide)

theorem subkind_lens_traversal (c : OpticKind)
    (h : subkind c .lens = true) : subkind c .traversal = true := by
  cases c <;> first | rfl | exact absurd h (by decide)

theorem subkind_prism_not_iso (c : OpticKind)
    (h : subkind c .prism = true) (h2 : subkind c .isomorphism = false) :
    c = .prism := by
  cases c <;> first | rfl | exact absurd h (by decide) | exact absurd h2 (by decide)

/-- The primitive members of an optic (before trivial-iso filtering). -/
def primsOf : KOptic → List Prim
  | single p => [p]
  | composed ps => ps

/-- An optic that is not the `TrivialIso`. -/
def Nontrivial : KOptic → Prop
  | single p => p.trivial = false
  | composed _ => True

theorem isKind_eq_all (a : KOptic) (c : OpticKind) :
    isKind a c = (primsOf a).all (fun p => isKindP p c) := by
  cases a with
  | single p => simp [isKind, primsOf, isKindP, List.all]
  | composed ps => rfl

theorem filterL_eq_primsOf (a : KOptic) (h : Nontrivial a) :
    filterL a = primsOf a := by
  cases a with
  | single p =>
      simp only [Nontrivial] at h
      simp [filterL, primsOf, h]
  | composed ps => rfl

/-- Membership of every kind in the probe order of `kind()`. -/
theorem mem_kindOrder (c : OpticKind) : c ∈ kindOrder := by
  cases c <;> simp [kindOrder]

/-- A `kindOfList` result is a kind every member satisfies. -/
theorem kindOfList_some_sat {ps : List Prim} {c : OpticKind}
    (h : kindOfList ps = some c) : ∀ p ∈ ps, isKindP p c = true := by
  have := List.find?_some h
  intro p hp
  exact List.all_eq_true.mp this p hp

/-- If some kind is satisfied by every member, `kindOfList` finds one. -/
theorem kindOfList_ne_none {ps : List Prim} {c : OpticKind}
    (h : ∀ p ∈ ps, isKindP p c = true) : kindOfList ps ≠ none := by
  intro hnone
  have := List.find?_eq_none.mp hnone c (mem_kindOrder c)
  exact this (List.all_eq_true.mpr h)

/-- Every well-formed optic satisfies some kind other than `Equality`. -/
theorem exists_non_equality_kind (a : KOptic) (ha : a.WF) :
    ∃ c, c ≠ OpticKind.equality ∧ isKind a c = true := by
  cases a with
  | single q =>
      by_cases hq : q.cls = .equality
      · refine ⟨.isomorphism, by decide, ?_⟩
        simp only [isKind, isKindP, hq]
        decide
      · refine ⟨q.cls, hq, ?_⟩
        simp [isKind, isKindP, subkind_refl]
  | composed ps =>
      obtain ⟨-, -, hkind⟩ := ha
      obtain ⟨c₀, hc₀⟩ := Option.ne_none_iff_exists'.mp hkind
      have hsat := kindOfList_some_sat hc₀
      by_cases heq : c₀ = .equality
      · refine ⟨.isomorphism, by decide, ?_⟩
        rw [isKind_eq_all]
        refine List.all_eq_true.mpr (fun p hp => ?_)
        have hpk := hsat p hp
        rw [heq] at hpk
        exact subkind_equality_iso _ hpk
      · refine ⟨c₀, heq, ?_⟩
        rw [isKind_eq_all]
        exact List.all_eq_true.mpr hsat

end KOptic

namespace KOptic

theorem primsOf_ne_nil (a : KOptic) (ha : a.WF) : primsOf a ≠ [] := by
  cases a with
  | single p => simp [primsOf]
  | composed ps =>
      obtain ⟨hlen, -, -⟩ := ha
      intro hnil
      rw [primsOf] at hnil
      simp [hnil] at hlen

theorem isKind_filterL {a : KOptic} {c : OpticKind}
    (h : isKind a c = true) : ∀ p ∈ filterL a, isKindP p c = true := by
  cases a with
  | single p =>
      intro q hq
      rw [filterL] at hq
      split at hq
      · simp at hq
      · simp at hq
        rw [hq]
        exact h
  | composed ps =>
      intro q hq
      exact List.all_eq_true.mp h q hq

theorem isKind_of_all {a : KOptic} {c : OpticKind}
    (h : ∀ p ∈ primsOf a, isKindP p c = true) : isKind a c = true := by
  rw [isKind_eq_all]
  exact List.all_eq_true.mpr h

/-- A trivial iso satisfies every kind except `Equality`. -/
theorem trivial_isKind {c : OpticKind} (hc : c ≠ .equality) :
    isKind (single trivialPrim) c = true := by
  simp only [isKind, isKindP, trivialPrim]
  cases c <;> first | rfl | exact absurd rfl hc

theorem not_nontrivial_spec {a : KOptic} (ha : a.WF)
    (h : ¬Nontrivial a) : a = single trivialPrim := by
  cases a with
  | single p =>
      simp only [Nontrivial, Bool.not_eq_false] at h
      have hcls := ha h
      cases p with
      | mk cls t =>
          simp only at hcls h
          rw [trivialPrim, hcls, h]
  | composed ps => exact absurd trivial h

end KOptic

namespace KOptic

/-- The composition-time kind check: `composeK a b` raises `RuntimeError`
exactly when the capability sets of `a` and `b` have empty intersection. -/
theorem composeK_error_iff (a b : KOptic) (ha : a.WF) (hb : b.WF) :
    composeK a b = .error .runtimeError ↔
      ∀ c, ¬(isKind a c = true ∧ isKind b c = true) := by
  constructor
  · intro h c ⟨hac, hbc⟩
    unfold composeK at h
    rcases hls : filterL a ++ filterL b with _ | ⟨l1, _ | ⟨l2, rest⟩⟩ <;>
      rw [hls] at h
    · exact absurd h (by simp)
    · exact absurd h (by simp)
    · have hall : ∀ p ∈ l1 :: l2 :: rest, isKindP p c = true := by
        intro p hp
        rw [← hls] at hp
        rcases List.mem_append.mp hp with hpa | hpb
        · exact isKind_filterL hac p hpa
        · exact isKind_filterL hbc p hpb
      dsimp only at h
      by_cases hk : kindOfList (l1 :: l2 :: rest) = none
      · exact kindOfList_ne_none hall hk
      · rw [if_neg hk] at h
        exact absurd h (by simp)
  · intro h
    by_cases hat : Nontrivial a
    case neg =>
      exfalso
      obtain ⟨c, hc, hbk⟩ := exists_non_equality_kind b hb
      have hatriv := not_nontrivial_spec ha hat
      exact h c ⟨by rw [hatriv]; exact trivial_isKind hc, hbk⟩
    by_cases hbt : Nontrivial b
    case neg =>
      exfalso
      obtain ⟨c, hc, hak⟩ := exists_non_equality_kind a ha
      have hbtriv := not_nontrivial_spec hb hbt
      exact h c ⟨hak, by rw [hbtriv]; exact trivial_isKind hc⟩
    obtain ⟨x, A', hA⟩ := List.exists_cons_of_ne_nil (primsOf_ne_nil a ha)
    obtain ⟨y, B', hB⟩ := List.exists_cons_of_ne_nil (primsOf_ne_nil b hb)
    have hnone : kindOfList (filterL a ++ filterL b) = none := by
      rcases hk : kindOfList (filterL a ++ filterL b) with _ | c₀
      · rfl
      · exfalso
        have hsat := kindOfList_some_sat hk
        refine h c₀ ⟨isKind_of_all ?_, isKind_of_all ?_⟩
        · intro p hp
          refine hsat p ?_
          rw [filterL_eq_primsOf a hat]
          exact List.mem_append_left _ hp
        · intro p hp
          refine hsat p ?_
          rw [filterL_eq_primsOf b hbt]
          exact List.mem_append_right _ hp
    unfold composeK
    rw [filterL_eq_primsOf a hat, filterL_eq_primsOf b hbt, hA, hB]
    rw [filterL_eq_primsOf a hat, filterL_eq_primsOf b hbt, hA, hB] at hnone
    cases A' with
    | nil =>
        simp only [List.nil_append, List.cons_append] at hnone ⊢
        rw [if_pos hnone]
    | cons z A'' =>
        simp only [List.cons_append] at hnone ⊢
        rw [if_pos hnone]

end KOptic

namespace KOptic

theorem kindOf_eq_find (a : KOptic) :
    kindOf a = kindOrder.find? (fun c => isKind a c) := by
  cases a <;> rfl

theorem composeK_ok_form (a b : KOptic) (ha : a.WF) (hb : b.WF)
    (hat : Nontrivial a) (hbt : Nontrivial b) {o : KOptic}
    (h : composeK a b = .ok o) :
    o = composed (primsOf a ++ primsOf b) ∧
      kindOfList (primsOf a ++ primsOf b) ≠ none := by
  unfold composeK at h
  rw [filterL_eq_primsOf a hat, filterL_eq_primsOf b hbt] at h
  obtain ⟨x, A', hA⟩ := List.exists_cons_of_ne_nil (primsOf_ne_nil a ha)
  obtain ⟨y, B', hB⟩ := List.exists_cons_of_ne_nil (primsOf_ne_nil b hb)
  rw [hA, hB] at h ⊢
  cases A' with
  | nil =>
      simp only [List.nil_append, List.cons_append] at h ⊢
      split at h
      · exact absurd h (by simp)
      · next hk =>
          refine ⟨?_, hk⟩
          injection h with h
          rw [h]
  | cons z A'' =>
      simp only [List.cons_append] at h ⊢
      split at h
      · exact absurd h (by simp)
      · next hk =>
          refine ⟨?_, hk⟩
          injection h with h
          rw [h]

/-- Composing two non-trivial well-formed optics intersects their
capability sets. -/
theorem composeK_ok_isKind (a b : KOptic) (ha : a.WF) (hb : b.WF)
    (hat : Nontrivial a) (hbt : Nontrivial b) {o : KOptic}
    (h : composeK a b = .ok o) (c : OpticKind) :
    isKind o c = (isKind a c && isKind b c) := by
  obtain ⟨ho, -⟩ := composeK_ok_form a b ha hb hat hbt h
  rw [ho, isKind_eq_all a, isKind_eq_all b]
  show (primsOf a ++ primsOf b).all _ = _
  rw [List.all_append]

theorem find_kindOrder_lens (f : OpticKind → Bool)
    (h : kindOrder.find? f = some .lens) :
    f .equality = false ∧ f .isomorphism = false ∧ f .prism = false ∧
      f .review = false ∧ f .lens = true := by
  simp only [kindOrder] at h
  cases h1 : f .equality
  case true => rw [List.find?_cons_of_pos _ h1] at h; exact absurd h (by simp)
  rw [List.find?_cons_of_neg _ (by simp [h1])] at h
  cases h2 : f .isomorphism
  case true => rw [List.find?_cons_of_pos _ h2] at h; exact absurd h (by simp)
  rw [List.find?_cons_of_neg _ (by simp [h2])] at h
  cases h3 : f .prism
  case true => rw [List.find?_cons_of_pos _ h3] at h; exact absurd h (by simp)
  rw [List.find?_cons_of_neg _ (by simp [h3])] at h
  cases h4 : f .review
  case true => rw [List.find?_cons_of_pos _ h4] at h; exact absurd h (by simp)
  rw [List.find?_cons_of_neg _ (by simp [h4])] at h
  cases h5 : f .lens
  case false =>
      rw [List.find?_cons_of_neg _ (by simp [h5])] at h
      have hmem := List.mem_of_find?_eq_some h
      exact absurd hmem (by decide)
  simp

theorem find_kindOrder_prism (f : OpticKind → Bool)
    (h : kindOrder.find? f = some .prism) :
    f .equality = false ∧ f .isomorphism = false ∧ f .prism = true := by
  simp only [kindOrder] at h
  cases h1 : f .equality
  case true => rw [List.find?_cons_of_pos _ h1] at h; exact absurd h (by simp)
  rw [List.find?_cons_of_neg _ (by simp [h1])] at h
  cases h2 : f .isomorphism
  case true => rw [List.find?_cons_of_pos _ h2] at h; exact absurd h (by simp)
  rw [List.find?_cons_of_neg _ (by simp [h2])] at h
  cases h3 : f .prism
  case false =>
      rw [List.find?_cons_of_neg _ (by simp [h3])] at h
      have hmem := List.mem_of_find?_eq_some h
      exact absurd hmem (by decide)
  simp

end KOptic

namespace KOptic

/-- `kind()` of the trivial iso is `Isomorphism`. -/
theorem kindOf_trivial : kindOf (single trivialPrim) = some .isomorphism := by
  decide

theorem nontrivial_of_kindOf_ne_iso {a : KOptic} (ha : a.WF)
    (h : kindOf a ≠ some .isomorphism) : Nontrivial a := by
  by_cases hat : Nontrivial a
  · exact hat
  · rw [not_nontrivial_spec ha hat] at h
    exact absurd kindOf_trivial h

/-- Composing a `kind() = Lens` optic with a `kind() = Prism` optic yields
a `kind() = Traversal` optic. -/
theorem composeK_lens_prism (a b : KOptic) (ha : a.WF) (hb : b.WF)
    (hka : kindOf a = some .lens) (hkb : kindOf b = some .prism)
    {o : KOptic} (h : composeK a b = .ok o) :
    kindOf o = some .traversal := by
  have hat : Nontrivial a :=
    nontrivial_of_kindOf_ne_iso ha (by rw [hka]; simp)
  have hbt : Nontrivial b :=
    nontrivial_of_kindOf_ne_iso hb (by rw [hkb]; simp)
  rw [kindOf_eq_find] at hka hkb
  obtain ⟨haEq, haIso, haPr, haRe, haLe⟩ := find_kindOrder_lens _ hka
  obtain ⟨hbEq, hbIso, hbPr⟩ := find_kindOrder_prism _ hkb
  -- every member of `b` is a Prism subclass; one of them is not an
  -- Isomorphism subclass, hence is exactly a Prism, hence not a Lens
  have hbLe : isKind b .lens = false := by
    have hex : ¬∀ p ∈ primsOf b, isKindP p .isomorphism = true := by
      rw [← List.all_eq_true, ← isKind_eq_all]
      simp [hbIso]
    push_neg at hex
    obtain ⟨p₀, hp₀, hp₀iso⟩ := hex
    have hp₀pr : isKindP p₀ .prism = true := by
      rw [isKind_eq_all] at hbPr
      exact List.all_eq_true.mp hbPr p₀ hp₀
    have hp₀cls : p₀.cls = .prism :=
      subkind_prism_not_iso _ hp₀pr (Bool.eq_false_iff.mpr hp₀iso)
    rw [isKind_eq_all]
    refine Bool.eq_false_iff.mpr (fun hall => hp₀iso ?_)
    have := List.all_eq_true.mp hall p₀ hp₀
    rw [isKindP, hp₀cls] at this
    exact absurd this (by decide)
  have haTr : isKind a .traversal = true := by
    rw [isKind_eq_all] at haLe ⊢
    refine List.all_eq_true.mpr (fun p hp => ?_)
    exact subkind_lens_traversal _ (List.all_eq_true.mp haLe p hp)
  have hbTr : isKind b .traversal = true := by
    rw [isKind_eq_all] at hbPr ⊢
    refine List.all_eq_true.mpr (fun p hp => ?_)
    exact subkind_prism_traversal _ (List.all_eq_true.mp hbPr p hp)
  have hok := composeK_ok_isKind a b ha hb hat hbt h
  rw [kindOf_eq_find, kindOrder]
  rw [List.find?_cons_of_neg _ (by simp [hok, haEq])]
  rw [List.find?_cons_of_neg _ (by simp [hok, haIso])]
  rw [List.find?_cons_of_neg _ (by simp [hok, haPr])]
  rw [List.find?_cons_of_neg _ (by simp [hok, haRe])]
  rw [List.find?_cons_of_neg _ (by simp [hok, hbLe])]
  rw [List.find?_cons_of_pos _ (by simp [hok, haTr, hbTr])]

end KOptic

/-- Decidable equality of `Except` results. -/
def decEqExcept {E A : Type} [DecidableEq E] [DecidableEq A] :
    (a b : Except E A) → Decidable (a = b)
  | .ok a, .ok b =>
      if h : a = b then isTrue (by rw [h]) else isFalse (by simp [h])
  | .error e, .error f =>
      if h : e = f then isTrue (by rw [h]) else isFalse (by simp [h])
  | .ok _, .error _ => isFalse nofun
  | .error _, .ok _ => isFalse nofun

instance {E A : Type} [DecidableEq E] [DecidableEq A] :
    DecidableEq (Except E A) := decEqExcept

/-- C2: composing two optics whose capability sets have an empty
intersection (for example a Fold-only optic with a Setter-only optic)
raises an error at the moment `compose` is called — the composition itself
returns `RuntimeError`, before any `view`/`set`/`over` could run on any
state. -/
theorem claim2_compose_conflict_eager :
    (∀ a b : KOptic, a.WF → b.WF →
        (∀ c, ¬(KOptic.isKind a c = true ∧ KOptic.isKind b c = true)) →
        KOptic.composeK a b = .error .runtimeError)
    ∧ KOptic.composeK (.single ⟨.fold, false⟩) (.single ⟨.setter, false⟩)
        = .error .runtimeError := by
  constructor
  · intro a b ha hb hc
    exact (KOptic.composeK_error_iff a b ha hb).mpr hc
  · decide

/-- Witness for C2 at the Fold-only/Setter-only pair. -/
theorem claim2_compose_conflict_eager_witness :
    (KOptic.single ⟨.fold, false⟩).WF ∧ (KOptic.single ⟨.setter, false⟩).WF ∧
    KOptic.composeK (.single ⟨.fold, false⟩) (.single ⟨.setter, false⟩)
      = .error .runtimeError := by
  refine ⟨by simp [KOptic.WF], by simp [KOptic.WF], ?_⟩
  exact claim2_compose_conflict_eager.1 (.single ⟨.fold, false⟩)
    (.single ⟨.setter, false⟩) (by simp [KOptic.WF]) (by simp [KOptic.WF])
    (by decide)

/-- C1 counterexample: composing the trivial identity iso with an
`Equality` optic returns the `Equality` optic itself (the trivial iso is
elided), so the composition satisfies the kind `Equality` even though the
left operand does not — the claimed if-and-only-if fails. -/
theorem claim1_counterexample :
    KOptic.composeK (.single trivialPrim) (.single ⟨.equality, false⟩)
        = .ok (.single ⟨.equality, false⟩)
    ∧ KOptic.isKind (.single ⟨.equality, false⟩) .equality = true
    ∧ KOptic.isKind (.single trivialPrim) .equality = false := by
  decide

/-- C1 (amended): for every two well-formed optics neither of which is the
trivial identity iso, a successful composition satisfies a kind exactly
when both operands do; and composing a `kind() = Lens` optic with a
`kind() = Prism` optic yields a `kind() = Traversal` optic.  (A trivial
identity iso is elided at composition time, so composing it with an
`Equality` optic yields an optic satisfying `Equality` although the
trivial iso itself does not.) -/
theorem claim1_composition_kind_intersection :
    (∀ a b : KOptic, a.WF → b.WF → a.Nontrivial → b.Nontrivial →
      ∀ o, KOptic.composeK a b = .ok o →
      ∀ c, KOptic.isKind o c = (KOptic.isKind a c && KOptic.isKind b c))
    ∧ (∀ a b : KOptic, a.WF → b.WF →
      KOptic.kindOf a = some .lens → KOptic.kindOf b = some .prism →
      ∀ o, KOptic.composeK a b = .ok o →
      KOptic.kindOf o = some .traversal) :=
  ⟨fun a b ha hb hat hbt _ h c =>
      KOptic.composeK_ok_isKind a b ha hb hat hbt h c,
   fun a b ha hb hka hkb _ h =>
      KOptic.composeK_lens_prism a b ha hb hka hkb h⟩

/-- Witness for C1's amended statement at a `Lens` and a `Prism`
primitive. -/
theorem claim1_composition_kind_intersection_witness :
    (KOptic.single ⟨.lens, false⟩).WF ∧ (KOptic.single ⟨.prism, false⟩).WF ∧
    KOptic.isKind (.composed [⟨.lens, false⟩, ⟨.prism, false⟩]) .setter
      = (KOptic.isKind (.single ⟨.lens, false⟩) .setter &&
         KOptic.isKind (.single ⟨.prism, false⟩) .setter) ∧
    KOptic.kindOf (.composed [⟨.lens, false⟩, ⟨.prism, false⟩])
      = some .traversal := by
  refine ⟨by simp [KOptic.WF], by simp [KOptic.WF], ?_, ?_⟩
  · exact claim1_composition_kind_intersection.1 (.single ⟨.lens, false⟩)
      (.single ⟨.prism, false⟩) (by simp [KOptic.WF]) (by simp [KOptic.WF])
      rfl rfl (.composed [⟨.lens, false⟩, ⟨.prism, false⟩]) (by decide)
      .setter
  · exact claim1_composition_kind_intersection.2 (.single ⟨.lens, false⟩)
      (.single ⟨.prism, false⟩) (by simp [KOptic.WF]) (by simp [KOptic.WF])
      (by decide) (by decide) (.composed [⟨.lens, false⟩, ⟨.prism, false⟩])
      (by decide)

/-! ### Small evaluation lemmas for the evaluators -/

theorem exMapM_ok_id (xs : List PyVal) :
    exMapM (fun a => (Except.ok a : Except PErr PyVal)) xs = .ok xs := by
  induction xs with
  | nil => rfl
  | cons x xs ih => simp [ih]

/-- C4: a `Prism(unpack, pack)` short-circuits when `unpack` returns
`Nothing` — `over` and `set` return the state unchanged via the functor's
`pure` and `preview` returns `Nothing` — and when `unpack` returns
`Just f`, `over` rebuilds with `pack (fn f)`, i.e. behaves as an
isomorphism on the extracted focus. -/
theorem claim4_prism_short_circuit
    (u : PyVal → Except PErr (Option PyVal))
    (p : PyVal → Except PErr PyVal) (s : PyVal) (fn : PyVal → PyVal)
    (v : PyVal) :
    (u s = .ok none →
      over (.prism u p) s fn = .ok s ∧ set (.prism u p) s v = .ok s ∧
        preview (.prism u p) s = .ok none)
    ∧ (∀ f, u s = .ok (some f) → over (.prism u p) s fn = p (fn f)) := by
  constructor
  · intro h
    refine ⟨?_, ?_, ?_⟩
    · simp [over, Optic.isKind, subkind, identityFunc, h]
    · simp [Lenses.set, Optic.isKind, subkind, identityFunc, h]
    · simp [preview, Optic.isKind, subkind, constFunc, h]
  · intro f h
    simp [over, Optic.isKind, subkind, identityFunc, h]

/-- Witness for C4 at the truthiness filtering prism: state `0` is
rejected by `unpack` (over/set/preview short-circuit), state `1` is
accepted (over applies the function through `pack`). -/
theorem claim4_prism_short_circuit_witness :
    ((fun s => (Except.ok (if truthy s then some s else none) :
        Except PErr (Option PyVal))) (pint 0) = .ok none ∧
      (over (.prism (fun s => .ok (if truthy s then some s else none))
          (fun x => .ok x)) (pint 0) (fun _ => pint 9) = .ok (pint 0) ∧
        Lenses.set (.prism (fun s => .ok (if truthy s then some s else none))
          (fun x => .ok x)) (pint 0) (pint 9) = .ok (pint 0) ∧
        preview (.prism (fun s => .ok (if truthy s then some s else none))
          (fun x => .ok x)) (pint 0) = .ok none))
    ∧ ((fun s => (Except.ok (if truthy s then some s else none) :
        Except PErr (Option PyVal))) (pint 1) = .ok (some (pint 1)) ∧
      over (.prism (fun s => .ok (if truthy s then some s else none))
          (fun x => .ok x)) (pint 1) (fun _ => pint 9) = .ok (pint 9)) := by
  refine ⟨⟨by decide, ?_⟩, ⟨by decide, ?_⟩⟩
  · exact (claim4_prism_short_circuit
      (fun s => .ok (if truthy s then some s else none)) (fun x => .ok x)
      (pint 0) (fun _ => pint 9) (pint 9)).1 (by decide)
  · exact (claim4_prism_short_circuit
      (fun s => .ok (if truthy s then some s else none)) (fun x => .ok x)
      (pint 1) (fun _ => pint 9) (pint 9)).2 (pint 1) (by decide)

/-- C8 counterexample: on `{1: 10, 2: 20}`, `ItemLens(1).view` returns the
bare pair `(1, 10)` — not `Just((1, 10))` — and `ItemLens(3).view` returns
`None` — not `Nothing` (the lens' getter catches the `KeyError` and
focuses `None`, which `view` returns as-is). -/
theorem claim8_counterexample :
    view (itemLens (pint 1)) (pdict [(pint 1, pint 10), (pint 2, pint 20)])
      = .ok (ptuple [pint 1, pint 10])
    ∧ ptuple [pint 1, pint 10] ≠ pmaybe (some (ptuple [pint 1, pint 10]))
    ∧ view (itemLens (pint 3)) (pdict [(pint 1, pint 10), (pint 2, pint 20)])
      = .ok pnone
    ∧ pnone ≠ pmaybe none := by decide

/-- C8 (amended): for the item-by-key optic at key 1 over `{1: 10, 2: 20}`:
`view` returns the bare pair `(1, 10)` and returns `None` (not a Maybe
value) when the key is absent; `set(None)` removes the key, yielding
`{2: 20}`; `set((3, 10))` inserts the new pair and removes the old key
because the key changed, yielding `{2: 20, 3: 10}`. -/
theorem claim8_item_lens_scenario :
    view (itemLens (pint 1)) (pdict [(pint 1, pint 10), (pint 2, pint 20)])
      = .ok (ptuple [pint 1, pint 10])
    ∧ view (itemLens (pint 3)) (pdict [(pint 1, pint 10), (pint 2, pint 20)])
      = .ok pnone
    ∧ Lenses.set (itemLens (pint 1))
        (pdict [(pint 1, pint 10), (pint 2, pint 20)]) pnone
      = .ok (pdict [(pint 2, pint 20)])
    ∧ Lenses.set (itemLens (pint 1))
        (pdict [(pint 1, pint 10), (pint 2, pint 20)])
        (ptuple [pint 3, pint 10])
      = .ok (pdict [(pint 2, pint 20), (pint 3, pint 10)]) := by decide

/-- C9 counterexample: the truthiness filtering prism composed after the
each-element traversal on `[0, 1, '', 'hi']` sets in place — `set(2)`
yields `[0, 2, '', 2]`, not the claimed `[2, 0, 2, '']`. -/
theorem claim9_counterexample :
    Lenses.set (.comp eachTraversal (filteringPrism truthy))
        (plist [pint 0, pint 1, pstr [], pstr ['h', 'i']]) (pint 2)
      = .ok (plist [pint 0, pint 2, pstr [], pint 2])
    ∧ plist [pint 0, pint 2, pstr [], pint 2]
        ≠ plist [pint 2, pint 0, pint 2, pstr []] := by decide

/-- C9 (amended): for the truthiness filtering prism composed after the
each-element traversal on `[0, 1, '', 'hi']`: `to_list` returns
`[1, 'hi']` and `set(2)` returns `[0, 2, '', 2]` (falsy elements are
skipped in place; each truthy element is replaced where it sits). -/
theorem claim9_filtering_prism_scenario :
    to_list_of (.comp eachTraversal (filteringPrism truthy))
        (plist [pint 0, pint 1, pstr [], pstr ['h', 'i']])
      = .ok [pint 1, pstr ['h', 'i']]
    ∧ Lenses.set (.comp eachTraversal (filteringPrism truthy))
        (plist [pint 0, pint 1, pstr [], pstr ['h', 'i']]) (pint 2)
      = .ok (plist [pint 0, pint 2, pstr [], pint 2]) := by decide

/-! ### C10: the item-by-value setter removes all duplicate-valued entries -/

theorem foldl_remove_vals (v : PyVal) (l acc : List (PyVal × PyVal)) :
    l.foldl (fun acc p => if p.2 = v then removeKey acc p.1 else acc) acc
      = acc.filter (fun q => ¬ l.any (fun p => p.2 = v ∧ p.1 = q.1)) := by
  induction l generalizing acc with
  | nil => simp
  | cons p l ih =>
      rw [List.foldl_cons, ih]
      by_cases hpv : p.2 = v
      · rw [if_pos hpv, removeKey, List.filter_filter]
        refine List.filter_congr (fun q hq => ?_)
        refine Bool.eq_iff_iff.mpr ?_
        simp only [List.any_cons, hpv, Bool.and_eq_true, decide_eq_true_eq,
          Bool.or_eq_true, not_or, Bool.not_eq_true]
        constructor
        · rintro ⟨hany, hne⟩
          exact ⟨fun hx => hne hx.2.symm, hany⟩
        · rintro ⟨h1, h2⟩
          exact ⟨h2, fun hk => h1 ⟨trivial, hk.symm⟩⟩
      · rw [if_neg hpv]
        refine List.filter_congr (fun q hq => ?_)
        refine Bool.eq_iff_iff.mpr ?_
        simp only [List.any_cons, decide_eq_true_eq, Bool.or_eq_true, not_or]
        exact ⟨fun h => ⟨fun hx => hpv hx.1, h⟩, fun h => h.2⟩

theorem foldl_remove_eq_filter (v : PyVal) (d : List (PyVal × PyVal))
    (hd : NodupKeys d) :
    d.foldl (fun acc p => if p.2 = v then removeKey acc p.1 else acc) d
      = d.filter (fun q => ¬(q.2 = v)) := by
  rw [foldl_remove_vals]
  refine List.filter_congr (fun q hq => ?_)
  refine Bool.eq_iff_iff.mpr ?_
  simp only [decide_eq_true_eq, Bool.not_eq_true', decide_eq_false_iff_not]
  constructor
  · intro hnoany hqv
    exact hnoany (List.any_eq_true.mpr ⟨q, hq, by simp [hqv]⟩)
  · intro hqv hany
    obtain ⟨p, hp, hcond⟩ := List.any_eq_true.mp hany
    simp only [decide_eq_true_eq] at hcond
    obtain ⟨hpv, hpk⟩ := hcond
    have hpq : p = q := List.inj_on_of_nodup_map hd hp hq hpk
    rw [hpq] at hpv
    exact hqv hpv

/-- C10: for `ItemByValueLens(v)` over a dictionary state, `set` first
removes every entry whose value equals `v` — all duplicate-valued entries,
not just one — and then, when the focus is not `None`, stores
`focus[0] → focus[1]`; consequently `set(state, None)` deletes every entry
whose value equals `v`. -/
theorem claim10_item_by_value_set (v : PyVal) (d : List (PyVal × PyVal))
    (hd : NodupKeys d) :
    (∀ k w, Lenses.set (itemByValueLens v) (pdict d) (ptuple [k, w])
        = .ok (pdict (assocSet (d.filter (fun q => ¬(q.2 = v))) k w)))
    ∧ Lenses.set (itemByValueLens v) (pdict d) pnone
        = .ok (pdict (d.filter (fun q => ¬(q.2 = v)))) := by
  have hset_pair : ∀ k w, itemByValueSetter v (pdict d) (ptuple [k, w])
      = .ok (pdict (assocSet (d.filter (fun q => ¬(q.2 = v))) k w)) := by
    intro k w
    simp [itemByValueSetter, foldl_remove_eq_filter v d hd, subscript]
  have hset_none : itemByValueSetter v (pdict d) pnone
      = .ok (pdict (d.filter (fun q => ¬(q.2 = v)))) := by
    simp [itemByValueSetter, foldl_remove_eq_filter v d hd]
  constructor
  · intro k w
    simp only [Lenses.set, itemByValueLens, Optic.isKind, subkind,
      identityFunc, itemByValueGetter]
    rcases hfind : d.find? (fun p => p.2 = v) with _ | p <;>
      simp [hfind, hset_pair]
  · simp only [Lenses.set, itemByValueLens, Optic.isKind, subkind,
      identityFunc, itemByValueGetter]
    rcases hfind : d.find? (fun p => p.2 = v) with _ | p <;>
      simp [hfind, hset_none]

/-- Witness for C10 on `{1: 10, 2: 20, 3: 10}` with value 10: both
value-10 entries are removed. -/
theorem claim10_item_by_value_set_witness :
    NodupKeys [(pint 1, pint 10), (pint 2, pint 20), (pint 3, pint 10)] ∧
    Lenses.set (itemByValueLens (pint 10))
      (pdict [(pint 1, pint 10), (pint 2, pint 20), (pint 3, pint 10)]) pnone
      = .ok (pdict [(pint 2, pint 20)]) ∧
    Lenses.set (itemByValueLens (pint 10))
      (pdict [(pint 1, pint 10), (pint 2, pint 20), (pint 3, pint 10)])
      (ptuple [pint 4, pint 10])
      = .ok (pdict [(pint 2, pint 20), (pint 4, pint 10)]) := by
  have hnd : NodupKeys [(pint 1, pint 10), (pint 2, pint 20),
      (pint 3, pint 10)] := by decide
  refine ⟨hnd, ?_, ?_⟩
  · exact (claim10_item_by_value_set (pint 10) _ hnd).2
  · exact (claim10_item_by_value_set (pint 10) _ hnd).1 (pint 4) (pint 10)

/-! ### C6: hook round trip `from_iter(s, to_iter(s)) == s` -/

/-- Well-formedness of a supported state for iteration: lists, tuples and
strings are unconstrained; byte values are in range; dict keys and set
elements are duplicate-free (as Python guarantees). -/
def IterWF : PyVal → Prop
  | plist _ => True
  | ptuple _ => True
  | pstr _ => True
  | pbytes bs => ∀ b ∈ bs, b < 256
  | pdict d => NodupKeys d
  | pset xs => xs.Nodup
  | _ => False

theorem keysOf_cons (k v : PyVal) (rest : List (PyVal × PyVal)) :
    keysOf ((k, v) :: rest) = k :: keysOf rest := rfl

theorem keysOf_append (a b : List (PyVal × PyVal)) :
    keysOf (a ++ b) = keysOf a ++ keysOf b := by
  simp [keysOf]

theorem assocSet_of_not_mem (ps : List (PyVal × PyVal)) (k v : PyVal)
    (h : k ∉ keysOf ps) : assocSet ps k v = ps ++ [(k, v)] := by
  induction ps with
  | nil => rfl
  | cons p rest ih =>
      obtain ⟨k', v'⟩ := p
      rw [keysOf_cons, List.mem_cons] at h
      push_neg at h
      rw [assocSet, if_neg (fun hh => h.1 hh.symm), ih h.2,
        List.cons_append]

theorem pyUpdate_disjoint (d acc : List (PyVal × PyVal)) (hd : NodupKeys d)
    (hdisj : ∀ k ∈ keysOf d, k ∉ keysOf acc) :
    pyUpdate acc d = acc ++ d := by
  induction d generalizing acc with
  | nil => simp [pyUpdate]
  | cons p rest ih =>
      obtain ⟨k, v⟩ := p
      simp only [NodupKeys, keysOf_cons] at hd
      simp only [keysOf_cons] at hdisj
      have hk_acc : k ∉ keysOf acc := hdisj k (List.mem_cons_self _ _)
      have hk_rest : k ∉ keysOf rest := (List.nodup_cons.mp hd).1
      simp only [pyUpdate, List.foldl_cons]
      have : pyUpdate (assocSet acc k v) rest
          = assocSet acc k v ++ rest := by
        refine ih (assocSet acc k v) (List.nodup_cons.mp hd).2
          (fun k' hk' => ?_)
        rw [assocSet_of_not_mem acc k v hk_acc]
        intro hmem
        rw [keysOf_append] at hmem
        rcases List.mem_append.mp hmem with hmem | hmem
        · exact hdisj k' (List.mem_cons_of_mem _ hk') hmem
        · simp only [keysOf, List.map_cons, List.map_nil,
            List.mem_singleton] at hmem
          rw [hmem] at hk'
          exact hk_rest hk'
      simp only [pyUpdate] at this
      rw [this, assocSet_of_not_mem acc k v hk_acc, List.append_assoc]
      rfl

theorem pyUpdate_nil_of_nodup (d : List (PyVal × PyVal))
    (hd : NodupKeys d) : pyUpdate [] d = d := by
  rw [pyUpdate_disjoint d [] hd (by simp [keysOf])]
  rfl

theorem dedupFirst_of_nodup (xs : List PyVal) (h : xs.Nodup) :
    dedupFirst xs = xs := by
  induction xs with
  | nil => rfl
  | cons x xs ih =>
      obtain ⟨hx, hxs⟩ := List.nodup_cons.mp h
      rw [dedupFirst, ih hxs, List.filter_eq_self.mpr]
      intro y hy
      simp only [decide_eq_true_eq]
      intro hyx
      rw [hyx] at hy
      exact hx hy

theorem flatten_singletons (cs : List Char) :
    (cs.map (fun c => [c])).flatten = cs := by
  induction cs with
  | nil => rfl
  | cons c cs ih => simp [ih]

theorem exMapM_str_chars (cs : List Char) :
    exMapM strOfVal (cs.map (fun c => pstr [c]))
      = .ok (cs.map (fun c => [c])) := by
  induction cs with
  | nil => rfl
  | cons c cs ih => simp [strOfVal, ih]

theorem exMapM_byte_range (bs : List Nat) (h : ∀ b ∈ bs, b < 256) :
    exMapM byteOfVal (bs.map (fun b => pint (Int.ofNat b))) = .ok bs := by
  induction bs with
  | nil => rfl
  | cons b bs ih =>
      have hb : 0 ≤ Int.ofNat b ∧ Int.ofNat b < 256 := by
        refine ⟨Int.ofNat_nonneg b, ?_⟩
        exact Int.ofNat_lt.mpr (h b (List.mem_cons_self _ _))
      have ihh := ih (fun x hx => h x (List.mem_cons_of_mem _ hx))
      simp only [List.map_cons, exMapM_cons, byteOfVal]
      rw [if_pos hb, exBind_ok, ihh]
      simp

theorem exMapM_asPair (d : List (PyVal × PyVal)) :
    exMapM asPair (d.map (fun p => ptuple [p.1, p.2])) = .ok d := by
  induction d with
  | nil => rfl
  | cons p d ih => simp [asPair, ih]

/-- The round trip itself, per supported type. -/
theorem iter_round_trip (s : PyVal) (h : IterWF s) :
    (to_iter s >>= from_iter s) = .ok s := by
  cases s with
  | plist xs => rfl
  | ptuple xs => rfl
  | pstr cs =>
      simp [to_iter, from_iter, exMapM_str_chars, flatten_singletons]
  | pbytes bs =>
      have hb : ∀ b ∈ bs, b < 256 := h
      rw [to_iter, exBind_ok, from_iter]
      rw [exMapM_byte_range bs hb]
      rfl
  | pdict d =>
      have hd : NodupKeys d := h
      simp [to_iter, from_iter, exMapM_asPair, pyUpdate_nil_of_nodup d hd]
  | pset xs =>
      have hx : xs.Nodup := h
      simp [to_iter, from_iter, dedupFirst_of_nodup xs hx]
  | pnone => exact absurd h (by simp [IterWF])
  | pint n => exact absurd h (by simp [IterWF])
  | pmaybe o => exact absurd h (by simp [IterWF])

/-- `EachTraversal.over` with the identity function rebuilds an equal
state. -/
theorem each_over_id (s : PyVal) (h : IterWF s) :
    over eachTraversal s id = .ok s := by
  have hrt := iter_round_trip s h
  have hkind : eachTraversal.isKind .setter = true := rfl
  rw [over, if_pos hkind]
  rw [eachTraversal, identityFunc]
  rcases hfoci : to_iter s with e | foci
  · rw [hfoci] at hrt
    simp at hrt
  · rw [hfoci] at hrt
    simp only [exBind_ok] at hrt
    cases foci with
    | nil => simp
    | cons x xs =>
        have hmap : exMapM (fun a => (Except.ok (id a) : Except PErr PyVal))
            (x :: xs) = .ok (x :: xs) := exMapM_ok_id (x :: xs)
        simp only [exBind_ok, hmap]
        exact hrt

/-- C6: for every well-formed state of a supported built-in type (list,
tuple, set, dict, str, bytes), `from_iter(s, to_iter(s)) == s`; in
particular dictionaries are iterated as key-value item pairs and rebuilt
from those pairs, so the each/all traversal with `over(state, identity)`
reconstructs an equal state. -/
theorem claim6_hook_round_trip :
    (∀ s : PyVal, IterWF s →
      (to_iter s >>= from_iter s) = .ok s ∧ over eachTraversal s id = .ok s)
    ∧ (∀ d : List (PyVal × PyVal),
      to_iter (pdict d) = .ok (d.map fun p => ptuple [p.1, p.2])) :=
  ⟨fun s h => ⟨iter_round_trip s h, each_over_id s h⟩, fun _ => rfl⟩

/-- Witness for C6 on a dict, a list, a string and a set. -/
theorem claim6_hook_round_trip_witness :
    IterWF (pdict [(pint 1, pint 10), (pint 2, pint 20)]) ∧
    ((to_iter (pdict [(pint 1, pint 10), (pint 2, pint 20)]) >>=
        from_iter (pdict [(pint 1, pint 10), (pint 2, pint 20)]))
      = .ok (pdict [(pint 1, pint 10), (pint 2, pint 20)]) ∧
     over eachTraversal (pdict [(pint 1, pint 10), (pint 2, pint 20)]) id
      = .ok (pdict [(pint 1, pint 10), (pint 2, pint 20)])) ∧
    IterWF (pset [pint 1, pstr ['a']]) ∧
    ((to_iter (pset [pint 1, pstr ['a']]) >>=
        from_iter (pset [pint 1, pstr ['a']]))
      = .ok (pset [pint 1, pstr ['a']]) ∧
     over eachTraversal (pset [pint 1, pstr ['a']]) id
      = .ok (pset [pint 1, pstr ['a']])) := by
  refine ⟨?_, ?_, ?_, ?_⟩
  · show NodupKeys [(pint 1, pint 10), (pint 2, pint 20)]
    decide
  · exact claim6_hook_round_trip.1 (pdict [(pint 1, pint 10),
      (pint 2, pint 20)]) (by show NodupKeys _; decide)
  · show List.Nodup [pint 1, pstr ['a']]
    decide
  · exact claim6_hook_round_trip.1 (pset [pint 1, pstr ['a']])
      (by show List.Nodup _; decide)

/-! ### Shapes: which values the `typeclass.mappend` monoid combines

`mappend` succeeds exactly on two values of the same shape, where a shape
is combinable (`goodShape`): ints, strings, bytes, lists and dicts
combine freely, tuples combine slot-wise when the same length and each
slot combines.  This classification drives the proof that `view` computes
the flat monoid combination of the foci. -/

inductive PShape where
  | sNone
  | sInt
  | sStr
  | sBytes
  | sList
  | sDict
  | sSet
  | sMaybe
  | sTuple (ss : List PShape)
  deriving Repr

mutual

def shape : PyVal → PShape
  | pnone => .sNone
  | pint _ => .sInt
  | pstr _ => .sStr
  | pbytes _ => .sBytes
  | plist _ => .sList
  | pdict _ => .sDict
  | pset _ => .sSet
  | pmaybe _ => .sMaybe
  | ptuple xs => .sTuple (shapeL xs)
termination_by structural v => v

def shapeL : List PyVal → List PShape
  | [] => []
  | x :: xs => shape x :: shapeL xs
termination_by structural l => l

end

mutual

def goodShape : PShape → Bool
  | .sInt => true
  | .sStr => true
  | .sBytes => true
  | .sList => true
  | .sDict => true
  | .sTuple ss => goodShapeL ss
  | _ => false
termination_by structural s => s

def goodShapeL : List PShape → Bool
  | [] => true
  | s :: ss => goodShape s && goodShapeL ss
termination_by structural l => l

end

theorem shapeL_length (xs : List PyVal) : (shapeL xs).length = xs.length := by
  induction xs with
  | nil => rfl
  | cons x xs ih => simp [shapeL, ih]

theorem shape_int {y : PyVal} (h : shape y = .sInt) : ∃ n, y = pint n := by
  cases y <;> simp_all [shape]

theorem shape_str {y : PyVal} (h : shape y = .sStr) : ∃ cs, y = pstr cs := by
  cases y <;> simp_all [shape]

theorem shape_bytes {y : PyVal} (h : shape y = .sBytes) :
    ∃ bs, y = pbytes bs := by
  cases y <;> simp_all [shape]

theorem shape_list {y : PyVal} (h : shape y = .sList) :
    ∃ xs, y = plist xs := by
  cases y <;> simp_all [shape]

theorem shape_dict {y : PyVal} (h : shape y = .sDict) :
    ∃ d, y = pdict d := by
  cases y <;> simp_all [shape]

theorem shape_tuple {y : PyVal} {ss : List PShape}
    (h : shape y = .sTuple ss) : ∃ xs, y = ptuple xs ∧ shapeL xs = ss := by
  cases y <;> simp_all [shape]

mutual

theorem mappend_ok_shape (x y z : PyVal) (h : mappend x y = .ok z) :
    shape x = shape y ∧ goodShape (shape x) = true ∧ shape z = shape x := by
  cases x with
  | ptuple a =>
      cases y with
      | ptuple b =>
          rw [mappend] at h
          split at h
          · next hlen =>
              rcases hzip : mappendZip a b with e | zs
              · rw [hzip] at h
                exact absurd h (by simp)
              · rw [hzip] at h
                simp only [exBind_ok] at h
                injection h with h
                obtain ⟨h1, h2, h3⟩ := mappendZip_ok_shape a b zs hzip hlen
                subst h
                exact ⟨by simp [shape, h1], by simp [shape, goodShape, h2],
                  by simp [shape, h3]⟩
          · exact absurd h (by simp)
      | pnone => exact absurd h (by simp [mappend])
      | pint _ => exact absurd h (by simp [mappend])
      | pstr _ => exact absurd h (by simp [mappend])
      | pbytes _ => exact absurd h (by simp [mappend])
      | plist _ => exact absurd h (by simp [mappend])
      | pdict _ => exact absurd h (by simp [mappend])
      | pset _ => exact absurd h (by simp [mappend])
      | pmaybe _ => exact absurd h (by simp [mappend])
  | pnone => cases y <;> simp_all [mappend]
  | pint a =>
      cases y <;> simp_all [mappend, shape, goodShape] <;> (rw [← h]; rfl)
  | pstr a =>
      cases y <;> simp_all [mappend, shape, goodShape] <;> (rw [← h]; rfl)
  | pbytes a =>
      cases y <;> simp_all [mappend, shape, goodShape] <;> (rw [← h]; rfl)
  | plist a =>
      cases y <;> simp_all [mappend, shape, goodShape] <;> (rw [← h]; rfl)
  | pdict a =>
      cases y <;> simp_all [mappend, shape, goodShape] <;> (rw [← h]; rfl)
  | pset a => cases y <;> simp_all [mappend]
  | pmaybe a => cases y <;> simp_all [mappend]
termination_by sizeOf x

theorem mappendZip_ok_shape (xs ys zs : List PyVal)
    (h : mappendZip xs ys = .ok zs) (hlen : xs.length = ys.length) :
    shapeL xs = shapeL ys ∧ goodShapeL (shapeL xs) = true ∧
      shapeL zs = shapeL xs := by
  cases xs with
  | nil =>
      cases ys with
      | nil =>
          rw [mappendZip] at h
          injection h with h
          subst h
          exact ⟨rfl, rfl, rfl⟩
      | cons y ys => simp at hlen
  | cons x xs =>
      cases ys with
      | nil => simp at hlen
      | cons y ys =>
          rw [mappendZip] at h
          rcases hm : mappend x y with e | z₁
          · rw [hm] at h
            exact absurd h (by simp)
          · rw [hm] at h
            simp only [exBind_ok] at h
            rcases hz : mappendZip xs ys with e | zs'
            · rw [hz] at h
              exact absurd h (by simp)
            · rw [hz] at h
              simp only [exBind_ok] at h
              injection h with h
              subst h
              obtain ⟨g1, g2, g3⟩ := mappend_ok_shape x y z₁ hm
              obtain ⟨t1, t2, t3⟩ :=
                mappendZip_ok_shape xs ys zs' hz (by simpa using hlen)
              refine ⟨by simp [shapeL, g1, t1], ?_, by simp [shapeL, g3, t3]⟩
              simp [shapeL, goodShapeL, g2, t2]
termination_by sizeOf xs

end

mutual

theorem mappend_total (x y : PyVal) (hs : shape x = shape y)
    (hg : goodShape (shape x) = true) :
    ∃ z, mappend x y = .ok z ∧ shape z = shape x := by
  cases x with
  | pint a =>
      obtain ⟨b, rfl⟩ := shape_int hs.symm
      exact ⟨pint (a + b), rfl, rfl⟩
  | pstr a =>
      obtain ⟨b, rfl⟩ := shape_str hs.symm
      exact ⟨pstr (a ++ b), rfl, rfl⟩
  | pbytes a =>
      obtain ⟨b, rfl⟩ := shape_bytes hs.symm
      exact ⟨pbytes (a ++ b), rfl, rfl⟩
  | plist a =>
      obtain ⟨b, rfl⟩ := shape_list hs.symm
      exact ⟨plist (a ++ b), rfl, rfl⟩
  | pdict a =>
      obtain ⟨b, rfl⟩ := shape_dict hs.symm
      exact ⟨pdict (pyUpdate (pyUpdate [] a) b), rfl, rfl⟩
  | ptuple a =>
      obtain ⟨b, rfl, hsl⟩ := @shape_tuple _ (shapeL a) hs.symm
      have hglist : goodShapeL (shapeL a) = true := by
        simpa [shape, goodShape] using hg
      obtain ⟨zs, hz, hzs⟩ := mappendZip_total a b hsl.symm hglist
      refine ⟨ptuple zs, ?_, by simp [shape, hzs]⟩
      rw [mappend]
      have hlen : a.length = b.length := by
        have := congrArg List.length hsl
        rw [shapeL_length, shapeL_length] at this
        exact this.symm
      rw [if_pos hlen, hz]
      rfl
  | pnone => exact absurd hg (by simp [shape, goodShape])
  | pset a => exact absurd hg (by simp [shape, goodShape])
  | pmaybe a => exact absurd hg (by simp [shape, goodShape])
termination_by sizeOf x

theorem mappendZip_total (xs ys : List PyVal) (hs : shapeL xs = shapeL ys)
    (hg : goodShapeL (shapeL xs) = true) :
    ∃ zs, mappendZip xs ys = .ok zs ∧ shapeL zs = shapeL xs := by
  cases xs with
  | nil =>
      cases ys with
      | nil => exact ⟨[], rfl, rfl⟩
      | cons y ys => simp [shapeL] at hs
  | cons x xs =>
      cases ys with
      | nil => simp [shapeL] at hs
      | cons y ys =>
          simp only [shapeL, List.cons.injEq] at hs
          simp only [shapeL, goodShapeL, Bool.and_eq_true] at hg
          obtain ⟨z, hz, hzs⟩ := mappend_total x y hs.1 hg.1
          obtain ⟨zs, hzl, hzsl⟩ := mappendZip_total xs ys hs.2 hg.2
          refine ⟨z :: zs, ?_, by simp [shapeL, hzs, hzsl]⟩
          rw [mappendZip, hz]
          simp only [exBind_ok]
          rw [hzl]
          rfl
termination_by sizeOf xs

end

/-! ### Ordered dict merge (`_mappend_dict`) is associative -/

theorem keysOf_assocSet (X : List (PyVal × PyVal)) (k v : PyVal) :
    keysOf (assocSet X k v)
      = if k ∈ keysOf X then keysOf X else keysOf X ++ [k] := by
  induction X with
  | nil => simp [assocSet, keysOf]
  | cons p rest ih =>
      obtain ⟨k1, v1⟩ := p
      rw [assocSet]
      by_cases hk : k1 = k
      · rw [if_pos hk, keysOf_cons, keysOf_cons,
          if_pos (by rw [hk]; exact List.mem_cons_self _ _)]
      · rw [if_neg hk, keysOf_cons, keysOf_cons, ih]
        by_cases hmem : k ∈ keysOf rest
        · rw [if_pos hmem, if_pos (List.mem_cons_of_mem _ hmem)]
        · rw [if_neg hmem, if_neg ?_, List.cons_append]
          intro hc
          rcases List.mem_cons.mp hc with hc | hc
          · exact hk hc.symm
          · exact hmem hc

theorem lookupA_assocSet (X : List (PyVal × PyVal)) (k v k' : PyVal) :
    lookupA (assocSet X k v) k'
      = if k = k' then some v else lookupA X k' := by
  induction X with
  | nil => simp [assocSet, lookupA]
  | cons p rest ih =>
      obtain ⟨k1, v1⟩ := p
      rw [assocSet]
      by_cases hk : k1 = k
      · subst hk
        rw [if_pos rfl]
        simp only [lookupA]
        by_cases hk' : k1 = k' <;> simp [hk']
      · rw [if_neg hk]
        simp only [lookupA, ih]
        by_cases hk' : k1 = k' <;> by_cases hkk : k = k' <;> simp_all

theorem nodupKeys_assocSet (X : List (PyVal × PyVal)) (k v : PyVal)
    (h : NodupKeys X) : NodupKeys (assocSet X k v) := by
  unfold NodupKeys at h ⊢
  rw [keysOf_assocSet]
  by_cases hmem : k ∈ keysOf X
  · rw [if_pos hmem]; exact h
  · rw [if_neg hmem]
    rw [List.nodup_append]
    exact ⟨h, List.nodup_singleton _, by simpa using hmem⟩

theorem nodupKeys_pyUpdate (l : List (PyVal × PyVal)) :
    ∀ X, NodupKeys X → NodupKeys (pyUpdate X l) := by
  induction l with
  | nil => intro X hX; exact hX
  | cons p l ih =>
      intro X hX
      simp only [pyUpdate, List.foldl_cons]
      exact ih _ (nodupKeys_assocSet X p.1 p.2 hX)

theorem pyUpdate_append (X : List (PyVal × PyVal))
    (a b : List (PyVal × PyVal)) :
    pyUpdate X (a ++ b) = pyUpdate (pyUpdate X a) b := by
  simp [pyUpdate, List.foldl_append]

/-- Last value of a key in an item sequence: the value `dict.update` ends
up storing for that key. -/
def lastVal (k : PyVal) : List (PyVal × PyVal) → Option PyVal
  | [] => none
  | p :: l =>
      match lastVal k l with
      | some v => some v
      | none => if p.1 = k then some p.2 else none

theorem lookupA_pyUpdate (l : List (PyVal × PyVal)) :
    ∀ (X : List (PyVal × PyVal)) (k : PyVal),
      lookupA (pyUpdate X l) k
        = match lastVal k l with
          | some v => some v
          | none => lookupA X k := by
  induction l with
  | nil => intro X k; rfl
  | cons p l ih =>
      intro X k
      simp only [pyUpdate, List.foldl_cons]
      have := ih (assocSet X p.1 p.2) k
      simp only [pyUpdate] at this
      rw [this, lastVal]
      rcases lastVal k l with _ | v
      · rw [lookupA_assocSet]
        by_cases hpk : p.1 = k <;> simp [hpk]
      · rfl

theorem lastVal_append (k : PyVal) (a b : List (PyVal × PyVal)) :
    lastVal k (a ++ b)
      = match lastVal k b with
        | some v => some v
        | none => lastVal k a := by
  induction a with
  | nil =>
      rw [List.nil_append]
      rcases h : lastVal k b with _ | v <;> simp [h, lastVal]
  | cons p a ih =>
      rw [List.cons_append, lastVal, ih, lastVal]
      rcases hb : lastVal k b with _ | v <;>
        rcases ha : lastVal k a with _ | w <;> rfl

theorem lastVal_of_not_mem (k : PyVal) (l : List (PyVal × PyVal))
    (h : k ∉ keysOf l) : lastVal k l = none := by
  induction l with
  | nil => rfl
  | cons p l ih =>
      rw [keysOf_cons, List.mem_cons] at h
      push_neg at h
      rw [lastVal, ih h.2, if_neg (fun hc => h.1 hc.symm)]

theorem lastVal_eq_lookupA (l : List (PyVal × PyVal)) (hl : NodupKeys l)
    (k : PyVal) : lastVal k l = lookupA l k := by
  induction l with
  | nil => rfl
  | cons p l ih =>
      obtain ⟨k1, v1⟩ := p
      simp only [NodupKeys, keysOf_cons, List.nodup_cons] at hl
      rw [lastVal, lookupA]
      by_cases hk : k1 = k
      · subst hk
        rw [lastVal_of_not_mem k1 l hl.1]
        simp
      · rw [ih hl.2, if_neg hk]
        rcases h : lookupA l k with _ | v <;> simp [h, hk]

/-- The keys produced by updating with an item sequence: existing keys
keep their place, new keys are appended at their first occurrence. -/
def addKeys (base : List PyVal) : List PyVal → List PyVal
  | [] => base
  | k :: ks => addKeys (if k ∈ base then base else base ++ [k]) ks

theorem addKeys_append (base : List PyVal) (a b : List PyVal) :
    addKeys base (a ++ b) = addKeys (addKeys base a) b := by
  induction a generalizing base with
  | nil => rfl
  | cons k a ih => rw [List.cons_append, addKeys, addKeys, ih]

theorem mem_addKeys (l : List PyVal) :
    ∀ (base : List PyVal) (x : PyVal),
      x ∈ addKeys base l ↔ x ∈ base ∨ x ∈ l := by
  induction l with
  | nil => intro base x; simp [addKeys]
  | cons k l ih =>
      intro base x
      rw [addKeys, ih]
      by_cases hk : k ∈ base
      · rw [if_pos hk]
        constructor
        · rintro (hx | hx)
          · exact Or.inl hx
          · exact Or.inr (List.mem_cons_of_mem _ hx)
        · rintro (hx | hx)
          · exact Or.inl hx
          · rcases List.mem_cons.mp hx with rfl | hx
            · exact Or.inl hk
            · exact Or.inr hx
      · rw [if_neg hk]
        constructor
        · rintro (hx | hx)
          · rcases List.mem_append.mp hx with hx | hx
            · exact Or.inl hx
            · simp only [List.mem_singleton] at hx
              exact Or.inr (hx ▸ List.mem_cons_self _ _)
          · exact Or.inr (List.mem_cons_of_mem _ hx)
        · rintro (hx | hx)
          · exact Or.inl (List.mem_append_left _ hx)
          · rcases List.mem_cons.mp hx with rfl | hx
            · exact Or.inl (List.mem_append_right _ (by simp))
            · exact Or.inr hx

theorem keysOf_pyUpdate (l : List (PyVal × PyVal)) :
    ∀ X, keysOf (pyUpdate X l) = addKeys (keysOf X) (keysOf l) := by
  induction l with
  | nil => intro X; rfl
  | cons p l ih =>
      intro X
      simp only [pyUpdate, List.foldl_cons]
      have := ih (assocSet X p.1 p.2)
      simp only [pyUpdate] at this
      rw [this, keysOf_cons, addKeys, keysOf_assocSet]

theorem addKeys_addKeys (l : List PyVal) :
    ∀ (acc X : List PyVal),
      addKeys X (addKeys acc l) = addKeys (addKeys X acc) l := by
  induction l with
  | nil => intro acc X; rfl
  | cons k l ih =>
      intro acc X
      rw [addKeys, ih, addKeys]
      congr 1
      by_cases hk : k ∈ acc
      · rw [if_pos hk, if_pos ((mem_addKeys acc X k).mpr (Or.inr hk))]
      · rw [if_neg hk, addKeys_append]
        rfl

theorem lookupA_not_mem_none (X : List (PyVal × PyVal)) (k : PyVal)
    (h : k ∉ keysOf X) : lookupA X k = none := by
  induction X with
  | nil => rfl
  | cons p X ih =>
      rw [keysOf_cons, List.mem_cons] at h
      push_neg at h
      obtain ⟨p1, p2⟩ := p
      rw [lookupA, if_neg (fun hc => h.1 hc.symm)]
      exact ih h.2

/-- Dicts with no duplicate keys, equal key sequences and equal lookups
are equal. -/
theorem assoc_ext (X : List (PyVal × PyVal)) :
    ∀ (Y : List (PyVal × PyVal)), NodupKeys X → NodupKeys Y →
      keysOf X = keysOf Y → (∀ k, lookupA X k = lookupA Y k) → X = Y := by
  induction X with
  | nil =>
      intro Y _ _ hkeys _
      cases Y with
      | nil => rfl
      | cons q Y => simp [keysOf] at hkeys
  | cons p X ih =>
      intro Y hX hY hkeys hlook
      obtain ⟨k, v⟩ := p
      cases Y with
      | nil => simp [keysOf] at hkeys
      | cons q Y =>
          obtain ⟨k2, w⟩ := q
          rw [keysOf_cons, keysOf_cons, List.cons.injEq] at hkeys
          obtain ⟨rfl, hkeys⟩ := hkeys
          have hv : v = w := by
            have := hlook k
            rw [lookupA, lookupA, if_pos rfl, if_pos rfl] at this
            injection this
          subst hv
          simp only [NodupKeys, keysOf_cons, List.nodup_cons] at hX hY
          have htail : X = Y := by
            refine ih Y hX.2 hY.2 hkeys (fun k' => ?_)
            by_cases hk' : k = k'
            · subst hk'
              rw [lookupA_not_mem_none X k hX.1,
                lookupA_not_mem_none Y k hY.1]
            · have := hlook k'
              rw [lookupA, lookupA, if_neg hk', if_neg hk'] at this
              exact this
          rw [htail]


theorem nodupKeys_nil : NodupKeys [] := by
  simp [NodupKeys, keysOf]

/-- `_mappend_dict` (copy, then `update` with each operand in turn) is
associative as an operation on insertion-ordered dicts. -/
theorem mappendDict_assoc (d e f : List (PyVal × PyVal)) :
    pyUpdate (pyUpdate [] (pyUpdate (pyUpdate [] d) e)) f
      = pyUpdate (pyUpdate [] d) (pyUpdate (pyUpdate [] e) f) := by
  have hMde : NodupKeys (pyUpdate (pyUpdate [] d) e) :=
    nodupKeys_pyUpdate e _ (nodupKeys_pyUpdate d [] nodupKeys_nil)
  have hNe : NodupKeys (pyUpdate [] e) :=
    nodupKeys_pyUpdate e [] nodupKeys_nil
  have hNef : NodupKeys (pyUpdate (pyUpdate [] e) f) :=
    nodupKeys_pyUpdate f _ hNe
  rw [pyUpdate_nil_of_nodup _ hMde, ← pyUpdate_append]
  refine assoc_ext _ _ ?_ ?_ ?_ ?_
  · exact nodupKeys_pyUpdate _ _ (nodupKeys_pyUpdate d [] nodupKeys_nil)
  · exact nodupKeys_pyUpdate _ _ (nodupKeys_pyUpdate d [] nodupKeys_nil)
  · rw [keysOf_pyUpdate (e ++ f) (pyUpdate [] d), keysOf_append,
      addKeys_append, keysOf_pyUpdate d [],
      keysOf_pyUpdate (pyUpdate (pyUpdate [] e) f) (pyUpdate [] d),
      keysOf_pyUpdate f (pyUpdate [] e), keysOf_pyUpdate e [],
      keysOf_pyUpdate d [], addKeys_addKeys, addKeys_addKeys]
    rfl
  · intro k
    rw [lookupA_pyUpdate (e ++ f) (pyUpdate [] d) k,
      lookupA_pyUpdate (pyUpdate (pyUpdate [] e) f) (pyUpdate [] d) k,
      lastVal_append, lastVal_eq_lookupA _ hNef k,
      lookupA_pyUpdate f (pyUpdate [] e) k, lookupA_pyUpdate e [] k,
      lookupA_pyUpdate d [] k]
    rcases hf : lastVal k f with _ | v <;>
      rcases he : lastVal k e with _ | w <;>
        rcases hd : lastVal k d with _ | u <;> simp [lookupA]

mutual

/-- Associativity of `typeclass.mappend` on same-shaped combinable
values: both bracketings succeed and agree. -/
theorem mappend_assoc3 (x y z : PyVal) (hxy : shape x = shape y)
    (hyz : shape y = shape z) (hg : goodShape (shape x) = true) :
    ∃ w₁ w₂ r, mappend x y = .ok w₁ ∧ mappend y z = .ok w₂ ∧
      mappend w₁ z = .ok r ∧ mappend x w₂ = .ok r := by
  cases x with
  | pint a =>
      obtain ⟨b, rfl⟩ := shape_int hxy.symm
      obtain ⟨c, rfl⟩ := shape_int (hyz.symm.trans hxy.symm)
      exact ⟨pint (a + b), pint (b + c), pint (a + b + c), rfl, rfl, rfl,
        by simp [mappend, Int.add_assoc]⟩
  | pstr a =>
      obtain ⟨b, rfl⟩ := shape_str hxy.symm
      obtain ⟨c, rfl⟩ := shape_str (hyz.symm.trans hxy.symm)
      exact ⟨pstr (a ++ b), pstr (b ++ c), pstr (a ++ b ++ c), rfl, rfl, rfl,
        by simp [mappend, List.append_assoc]⟩
  | pbytes a =>
      obtain ⟨b, rfl⟩ := shape_bytes hxy.symm
      obtain ⟨c, rfl⟩ := shape_bytes (hyz.symm.trans hxy.symm)
      exact ⟨pbytes (a ++ b), pbytes (b ++ c), pbytes (a ++ b ++ c), rfl,
        rfl, rfl, by simp [mappend, List.append_assoc]⟩
  | plist a =>
      obtain ⟨b, rfl⟩ := shape_list hxy.symm
      obtain ⟨c, rfl⟩ := shape_list (hyz.symm.trans hxy.symm)
      exact ⟨plist (a ++ b), plist (b ++ c), plist (a ++ b ++ c), rfl, rfl,
        rfl, by simp [mappend, List.append_assoc]⟩
  | pdict a =>
      obtain ⟨b, rfl⟩ := shape_dict hxy.symm
      obtain ⟨c, rfl⟩ := shape_dict (hyz.symm.trans hxy.symm)
      refine ⟨pdict (pyUpdate (pyUpdate [] a) b),
        pdict (pyUpdate (pyUpdate [] b) c),
        pdict (pyUpdate (pyUpdate [] (pyUpdate (pyUpdate [] a) b)) c),
        rfl, rfl, rfl, ?_⟩
      simp only [mappend, mappendDict_assoc]
  | ptuple a =>
      obtain ⟨b, rfl, hsb⟩ := @shape_tuple _ (shapeL a) hxy.symm
      obtain ⟨c, rfl, hsc⟩ :=
        @shape_tuple _ (shapeL a) (hyz.symm.trans hxy.symm)
      have hga : goodShapeL (shapeL a) = true := by
        simpa [shape, goodShape] using hg
      obtain ⟨ws, us, rs, hab, hbc, h1, h2⟩ :=
        mappendZip_assoc3 a b c hsb.symm (by rw [hsb, hsc]) hga
      obtain ⟨-, -, habs⟩ :=
        mappendZip_ok_shape a b ws hab
          (by rw [← shapeL_length a, ← shapeL_length b, hsb])
      obtain ⟨-, -, hbcs⟩ :=
        mappendZip_ok_shape b c us hbc
          (by rw [← shapeL_length b, ← shapeL_length c, hsb, hsc])
      have hlab : a.length = b.length := by
        rw [← shapeL_length a, ← shapeL_length b, hsb]
      have hlwc : ws.length = c.length := by
        rw [← shapeL_length ws, ← shapeL_length c, habs, hsc]
      have hlau : a.length = us.length := by
        rw [← shapeL_length a, ← shapeL_length us, hbcs, hsb]

      refine ⟨ptuple ws, ptuple us, ptuple rs, ?_, ?_, ?_, ?_⟩
      · rw [mappend, if_pos hlab, hab]; rfl
      · rw [mappend, if_pos (by
          rw [← shapeL_length b, ← shapeL_length c, hsb, hsc]), hbc]
        rfl
      · rw [mappend, if_pos hlwc, h1]; rfl
      · rw [mappend, if_pos hlau, h2]; rfl
  | pnone => exact absurd hg (by simp [shape, goodShape])
  | pset a => exact absurd hg (by simp [shape, goodShape])
  | pmaybe a => exact absurd hg (by simp [shape, goodShape])
termination_by sizeOf x

theorem mappendZip_assoc3 (xs ys zs : List PyVal)
    (hxy : shapeL xs = shapeL ys) (hyz : shapeL ys = shapeL zs)
    (hg : goodShapeL (shapeL xs) = true) :
    ∃ ws us rs, mappendZip xs ys = .ok ws ∧ mappendZip ys zs = .ok us ∧
      mappendZip ws zs = .ok rs ∧ mappendZip xs us = .ok rs := by
  cases xs with
  | nil =>
      cases ys with
      | nil =>
          cases zs with
          | nil => exact ⟨[], [], [], rfl, rfl, rfl, rfl⟩
          | cons z zs => simp [shapeL] at hyz
      | cons y ys => simp [shapeL] at hxy
  | cons x xs =>
      cases ys with
      | nil => simp [shapeL] at hxy
      | cons y ys =>
          cases zs with
          | nil => simp [shapeL] at hyz
          | cons z zs =>
              simp only [shapeL, List.cons.injEq] at hxy hyz
              simp only [shapeL, goodShapeL, Bool.and_eq_true] at hg
              obtain ⟨w₁, w₂, r, h1, h2, h3, h4⟩ :=
                mappend_assoc3 x y z hxy.1 hyz.1 hg.1
              obtain ⟨ws, us, rs, t1, t2, t3, t4⟩ :=
                mappendZip_assoc3 xs ys zs hxy.2 hyz.2 hg.2
              refine ⟨w₁ :: ws, w₂ :: us, r :: rs, ?_, ?_, ?_, ?_⟩
              · rw [mappendZip, h1]
                simp only [exBind_ok]
                rw [t1]
                rfl
              · rw [mappendZip, h2]
                simp only [exBind_ok]
                rw [t2]
                rfl
              · rw [mappendZip, h3]
                simp only [exBind_ok]
                rw [t3]
                rfl
              · rw [mappendZip, h4]
                simp only [exBind_ok]
                rw [t4]
                rfl
termination_by sizeOf xs

end

/-! ### The flat monoid combination a Fold's `view` computes -/

/-- `Nothing` when there is no focus, otherwise the left-to-right
`mappend` of all foci. -/
def combineM : List PyVal → Except PErr (Option PyVal)
  | [] => .ok none
  | x :: xs => do
      let r ← exFoldlM mappend x xs
      .ok (some r)

/-- A focus list the monoid can combine: all foci of one shape, and a
combinable shape whenever a real combination happens. -/
def Uniform (l : List PyVal) : Prop :=
  (∀ x ∈ l, ∀ y ∈ l, shape x = shape y) ∧
    (2 ≤ l.length → ∀ x ∈ l, goodShape (shape x) = true)

theorem uniform_nil : Uniform [] := ⟨by simp, by simp⟩

theorem uniform_singleton (x : PyVal) : Uniform [x] :=
  ⟨by simp, by simp⟩

theorem uniform_sub {l c : List PyVal} (hu : Uniform l)
    (hmem : ∀ x ∈ c, x ∈ l) (hlen : c.length ≤ l.length) : Uniform c :=
  ⟨fun x hx y hy => hu.1 x (hmem x hx) y (hmem y hy),
   fun h2 x hx => hu.2 (le_trans h2 hlen) x (hmem x hx)⟩

theorem exFoldlM_ok_shape (xs : List PyVal) :
    ∀ (a r : PyVal), exFoldlM mappend a xs = .ok r →
      shape r = shape a ∧
        ∀ y ∈ xs, shape y = shape a ∧ goodShape (shape a) = true := by
  induction xs with
  | nil =>
      intro a r h
      rw [exFoldlM] at h
      injection h with h
      exact ⟨by rw [h], by simp⟩
  | cons x xs ih =>
      intro a r h
      rw [exFoldlM] at h
      rcases hm : mappend a x with e | w
      · rw [hm] at h; exact absurd h (by simp)
      · rw [hm] at h
        simp only [exBind_ok] at h
        obtain ⟨hax, hg, hw⟩ := mappend_ok_shape a x w hm
        obtain ⟨hr, hall⟩ := ih w r h
        refine ⟨by rw [hr, hw], fun y hy => ?_⟩
        rcases List.mem_cons.mp hy with rfl | hy
        · exact ⟨hax.symm, hg⟩
        · have := hall y hy
          rw [hw] at this
          exact this

theorem exFoldlM_total (xs : List PyVal) :
    ∀ (a : PyVal), (∀ y ∈ xs, shape y = shape a) →
      goodShape (shape a) = true →
      ∃ r, exFoldlM mappend a xs = .ok r ∧ shape r = shape a := by
  induction xs with
  | nil => intro a _ _; exact ⟨a, rfl, rfl⟩
  | cons x xs ih =>
      intro a hsh hg
      obtain ⟨w, hw, hws⟩ :=
        mappend_total a x (hsh x (List.mem_cons_self _ _)).symm hg
      have hsh' : ∀ y ∈ xs, shape y = shape w := by
        intro y hy
        rw [hws]
        exact hsh y (List.mem_cons_of_mem _ hy)
      have hg' : goodShape (shape w) = true := by rw [hws]; exact hg
      obtain ⟨r, hr, hrs⟩ := ih w hsh' hg'
      refine ⟨r, ?_, by rw [hrs, hws]⟩
      rw [exFoldlM, hw]
      simp only [exBind_ok]
      exact hr

theorem exFoldlM_append (a : PyVal) (l1 l2 : List PyVal) :
    exFoldlM mappend a (l1 ++ l2)
      = (do
          let w ← exFoldlM mappend a l1
          exFoldlM mappend w l2) := by
  induction l1 generalizing a with
  | nil => simp [exFoldlM]
  | cons x l1 ih =>
      rw [List.cons_append, exFoldlM, exFoldlM]
      rcases hm : mappend a x with e | w
      · rfl
      · simp only [exBind_ok]
        exact ih w

/-- Pull the left operand out of a fold: `fold (a⊕b) xs = a ⊕ fold b xs`
under shape uniformity. -/
theorem exFoldlM_pull (xs : List PyVal) :
    ∀ (a b : PyVal), shape a = shape b → (∀ x ∈ xs, shape x = shape b) →
      goodShape (shape b) = true →
      (do
        let w ← mappend a b
        exFoldlM mappend w xs)
        = (do
            let r ← exFoldlM mappend b xs
            mappend a r) := by
  induction xs with
  | nil =>
      intro a b hab _ hg
      simp [exFoldlM]
  | cons x xs ih =>
      intro a b hab hsh hg
      have hbx : shape b = shape x := (hsh x (List.mem_cons_self _ _)).symm
      obtain ⟨w₁, w₂, r, h1, h2, h3, h4⟩ := mappend_assoc3 a b x hab hbx
        (by rw [hab]; exact hg)
      have hw₂s := (mappend_ok_shape b x w₂ h2).2.2
      rw [h1]
      simp only [exBind_ok]
      rw [exFoldlM, h3]
      simp only [exBind_ok]
      conv_rhs => rw [exFoldlM, h2]
      simp only [exBind_ok]
      have hsh' : ∀ y ∈ xs, shape y = shape w₂ := by
        intro y hy
        rw [hw₂s]
        exact hsh y (List.mem_cons_of_mem _ hy)
      have := ih a w₂ (by rw [hw₂s, hab]) hsh' (by rw [hw₂s]; exact hg)
      rw [h4] at this
      simp only [exBind_ok] at this
      exact this

theorem combineM_total {l : List PyVal} (hu : Uniform l) :
    ∃ m, combineM l = .ok m := by
  cases l with
  | nil => exact ⟨none, rfl⟩
  | cons x xs =>
      cases xs with
      | nil => exact ⟨some x, rfl⟩
      | cons y ys =>
          have hsh : ∀ z ∈ y :: ys, shape z = shape x := fun z hz =>
            hu.1 z (List.mem_cons_of_mem _ hz) x (List.mem_cons_self _ _)
          have hg : goodShape (shape x) = true :=
            hu.2 (by simp) x (List.mem_cons_self _ _)
          obtain ⟨r, hr, -⟩ := exFoldlM_total (y :: ys) x hsh hg
          refine ⟨some r, ?_⟩
          rw [combineM, hr]
          rfl

theorem combineM_ok_uniform {l : List PyVal} {m : Option PyVal}
    (h : combineM l = .ok m) : Uniform l := by
  cases l with
  | nil => exact uniform_nil
  | cons x xs =>
      rw [combineM] at h
      rcases hr : exFoldlM mappend x xs with e | r
      · rw [hr] at h; exact absurd h (by simp)
      · obtain ⟨-, hall⟩ := exFoldlM_ok_shape xs x r hr
        have hax : ∀ a ∈ x :: xs, shape a = shape x := by
          intro a ha
          rcases List.mem_cons.mp ha with rfl | ha
          · rfl
          · exact (hall a ha).1
        constructor
        · exact fun a ha b hb => (hax a ha).trans (hax b hb).symm
        · intro hlen a ha
          cases xs with
          | nil => simp at hlen
          | cons y ys =>
              have hg := (hall y (List.mem_cons_self _ _)).2
              rw [hax a ha]
              exact hg

theorem combineM_append {A B : List PyVal} (hu : Uniform (A ++ B))
    {ma mb : Option PyVal} (ha : combineM A = .ok ma)
    (hb : combineM B = .ok mb) :
    maybeAdd ma mb = combineM (A ++ B) := by
  cases A with
  | nil =>
      rw [combineM] at ha
      injection ha with ha
      subst ha
      rw [maybeAdd, List.nil_append, hb]
  | cons x xs =>
      cases B with
      | nil =>
          rw [combineM] at hb
          injection hb with hb
          subst hb
          rw [combineM] at ha
          rcases hr : exFoldlM mappend x xs with e | r
          · rw [hr] at ha; exact absurd ha (by simp)
          · rw [hr] at ha
            simp only [exBind_ok] at ha
            injection ha with ha
            subst ha
            rw [List.append_nil, combineM, hr]
            rfl
      | cons y ys =>
          rw [combineM] at ha hb
          rcases hra : exFoldlM mappend x xs with e | ra
          · rw [hra] at ha; exact absurd ha (by simp)
          rcases hrb : exFoldlM mappend y ys with e | rb
          · rw [hrb] at hb; exact absurd hb (by simp)
          rw [hra] at ha
          rw [hrb] at hb
          simp only [exBind_ok] at ha hb
          injection ha with ha
          injection hb with hb
          subst ha
          subst hb
          -- flat fold over the concatenation
          have hshx : shape ra = shape x := (exFoldlM_ok_shape xs x ra hra).1
          have hxy : shape x = shape y :=
            hu.1 x (by simp) y (by simp)
          have hygood : goodShape (shape y) = true := by
            refine hu.2 (by simp; omega) y (by simp)
          have hys : ∀ z ∈ ys, shape z = shape y := by
            intro z hz
            refine hu.1 z ?_ y (by simp)
            simp [hz]
          have hpull := exFoldlM_pull ys ra y (hshx.trans hxy) hys hygood
          rw [List.cons_append, combineM, exFoldlM_append, hra]
          simp only [exBind_ok]
          show maybeAdd (some ra) (some rb) = _
          rw [maybeAdd]
          rw [show exFoldlM mappend ra (y :: ys)
              = (do
                  let w ← mappend ra y
                  exFoldlM mappend w ys) from rfl]
          rw [hpull, hrb]
          simp only [exBind_ok]

theorem exFoldlM_listAppend (a : List PyVal) (ls : List (List PyVal)) :
    exFoldlM listAppend a ls = .ok (a ++ ls.flatten) := by
  induction ls generalizing a with
  | nil => simp [exFoldlM]
  | cons c ls ih =>
      rw [exFoldlM, listAppend]
      simp only [exBind_ok]
      rw [ih]
      simp

theorem length_le_flatten {c : List PyVal} {cs : List (List PyVal)}
    (h : c ∈ cs) : c.length ≤ cs.flatten.length := by
  induction cs with
  | nil => simp at h
  | cons d cs ih =>
      rcases List.mem_cons.mp h with rfl | h
      · simp
      · simp only [List.flatten_cons, List.length_append]
        exact le_add_self.trans (Nat.add_le_add_left (ih h) _) |>.trans
          (le_refl _)

/-- Chained chunk combination: folding `maybeAdd` over the per-chunk
combinations equals the flat combination of the concatenation. -/
theorem exFoldlM_maybeAdd_chunks (ls : List (List PyVal)) :
    ∀ (a0 : List PyVal) (m0 : Option PyVal) (ms : List (Option PyVal)),
      combineM a0 = .ok m0 →
      List.Forall₂ (fun c m => combineM c = .ok m) ls ms →
      Uniform (a0 ++ ls.flatten) →
      exFoldlM maybeAdd m0 ms = combineM (a0 ++ ls.flatten) := by
  induction ls with
  | nil =>
      intro a0 m0 ms ha hrel hu
      cases hrel
      rw [exFoldlM, List.flatten_nil, List.append_nil, ha]
  | cons c ls ih =>
      intro a0 m0 ms ha hrel hu
      rcases hrel with - | ⟨hcm, hrest⟩
      next m ms' =>
      have huac : Uniform (a0 ++ c) := by
        refine uniform_sub hu (fun x hx => ?_) ?_
        · rcases List.mem_append.mp hx with hx | hx
          · exact List.mem_append_left _ hx
          · refine List.mem_append_right _ ?_
            rw [List.flatten_cons]
            exact List.mem_append_left _ hx
        · simp only [List.length_append, List.flatten_cons]
          omega
      have hE := combineM_append huac ha hcm
      obtain ⟨m1, hm1⟩ := combineM_total huac
      rw [exFoldlM, hE, hm1]
      simp only [exBind_ok]
      have hassoc : (a0 ++ c) ++ ls.flatten = a0 ++ (c :: ls).flatten := by
        rw [List.flatten_cons, List.append_assoc]
      have := ih (a0 ++ c) m1 ms' hm1 hrest (by rw [hassoc]; exact hu)
      rw [this, hassoc]

theorem exMapM_chunks (fl : PyVal → Except PErr (List PyVal))
    (fm : PyVal → Except PErr (Option PyVal))
    (hpt : ∀ x l, fl x = .ok l → Uniform l → fm x = combineM l)
    (xs : List PyVal) :
    ∀ (ls : List (List PyVal)), exMapM fl xs = .ok ls →
      (∀ c ∈ ls, Uniform c) →
      ∃ ms, exMapM fm xs = .ok ms ∧
        List.Forall₂ (fun c m => combineM c = .ok m) ls ms := by
  induction xs with
  | nil =>
      intro ls h _
      rw [exMapM] at h
      injection h with h
      subst h
      exact ⟨[], rfl, List.Forall₂.nil⟩
  | cons x xs ih =>
      intro ls h hls
      rw [exMapM] at h
      rcases hc : fl x with e | c
      · rw [hc] at h; exact absurd h (by simp)
      rcases hcs : exMapM fl xs with e | cs
      · rw [hc, hcs] at h; exact absurd h (by simp)
      rw [hc, hcs] at h
      simp only [exBind_ok] at h
      injection h with h
      subst h
      have huc : Uniform c := hls c (List.mem_cons_self _ _)
      obtain ⟨m, hm⟩ := combineM_total huc
      obtain ⟨ms, hms, hrel⟩ := ih cs hcs
        (fun d hd => hls d (List.mem_cons_of_mem _ hd))
      refine ⟨m :: ms, ?_, List.Forall₂.cons hm hrel⟩
      rw [exMapM, hpt x c hc huc, hm]
      simp only [exBind_ok]
      rw [hms]
      rfl

/-- The multi-focus body of `Fold.func`/`Traversal.func` under the two
`Const` cargos: when the list cargo succeeds with a combinable focus
list, the `Just`/`Nothing` cargo computes its flat combination. -/
theorem sim_fold_cons (fl : PyVal → Except PErr (List PyVal))
    (fm : PyVal → Except PErr (Option PyVal))
    (hpt : ∀ x l, fl x = .ok l → Uniform l → fm x = combineM l)
    (x : PyVal) (xs : List PyVal) (l : List PyVal)
    (h : (do
        let fx ← fl x
        let fxs ← exMapM fl xs
        exFoldlM listAppend fx fxs) = .ok l)
    (hu : Uniform l) :
    (do
      let fx ← fm x
      let fxs ← exMapM fm xs
      exFoldlM maybeAdd fx fxs) = combineM l := by
  rcases hc : fl x with e | c0
  · rw [hc] at h; exact absurd h (by simp)
  rcases hcs : exMapM fl xs with e | cs
  · rw [hc, hcs] at h; exact absurd h (by simp)
  rw [hc, hcs] at h
  simp only [exBind_ok] at h
  rw [exFoldlM_listAppend] at h
  injection h with h
  subst h
  have hu0 : Uniform c0 := by
    refine uniform_sub hu (fun z hz => List.mem_append_left _ hz) ?_
    simp
  have hucs : ∀ c ∈ cs, Uniform c := by
    intro c hcmem
    refine uniform_sub hu (fun z hz => ?_) ?_
    · exact List.mem_append_right _ (List.mem_flatten.mpr ⟨c, hcmem, hz⟩)
    · simp only [List.length_append]
      exact (length_le_flatten hcmem).trans (Nat.le_add_left _ _)
  obtain ⟨m0, hm0⟩ := combineM_total hu0
  obtain ⟨ms, hms, hrel⟩ := exMapM_chunks fl fm hpt xs cs hcs hucs
  rw [hpt x c0 hc hu0, hm0]
  simp only [exBind_ok]
  rw [hms]
  simp only [exBind_ok]
  exact exFoldlM_maybeAdd_chunks cs c0 m0 ms hm0 hrel hu

/-- Simulation between the two `Const` evaluations of `LensLike.func`:
whenever the list-cargo run (`to_list_of`'s functor) succeeds with a
combinable focus list, the `Just`/`Nothing`-cargo run (`preview`'s
functor) computes exactly the flat `Just.__add__` combination of that
list, provided the per-focus cargos are similarly related. -/
theorem constFunc_maybe_of_list (o : Optic) :
    ∀ (fl : PyVal → Except PErr (List PyVal))
      (fm : PyVal → Except PErr (Option PyVal)),
      (∀ x l, fl x = .ok l → Uniform l → fm x = combineM l) →
      ∀ s l, constFunc listAppend (fun _ => []) fl o s = .ok l →
        Uniform l →
        constFunc maybeAdd (fun _ => none) fm o s = combineM l := by
  induction o with
  | fold folder =>
      intro fl fm hpt s l h hu
      rw [constFunc] at h
      rw [constFunc]
      rcases hf : folder s with e | foci
      · rw [hf] at h; exact absurd h (by simp)
      rw [hf] at h
      simp only [exBind_ok] at h ⊢
      match foci with
      | [] =>
          simp only [exPure_eq_ok] at h
          injection h with h
          subst h
          rfl
      | x :: xs =>
          exact sim_fold_cons fl fm hpt x xs l h hu
  | getter g =>
      intro fl fm hpt s l h hu
      rw [constFunc] at h
      rw [constFunc]
      rcases hg : g s with e | v
      · rw [hg] at h; exact absurd h (by simp)
      rw [hg] at h
      simp only [exBind_ok] at h ⊢
      exact hpt v l h hu
  | traversal folder builder =>
      intro fl fm hpt s l h hu
      rw [constFunc] at h
      rw [constFunc]
      rcases hf : folder s with e | foci
      · rw [hf] at h; exact absurd h (by simp)
      rw [hf] at h
      simp only [exBind_ok] at h ⊢
      match foci with
      | [] =>
          simp only [exPure_eq_ok] at h
          injection h with h
          subst h
          rfl
      | x :: xs =>
          exact sim_fold_cons fl fm hpt x xs l h hu
  | lens g st =>
      intro fl fm hpt s l h hu
      rw [constFunc] at h
      rw [constFunc]
      rcases hg : g s with e | v
      · rw [hg] at h; exact absurd h (by simp)
      rw [hg] at h
      simp only [exBind_ok] at h ⊢
      exact hpt v l h hu
  | review pack =>
      intro fl fm hpt s l h _
      rw [constFunc] at h
      exact absurd h (by simp)
  | prism unpack pack =>
      intro fl fm hpt s l h hu
      rw [constFunc] at h
      rw [constFunc]
      rcases hup : unpack s with e | m
      · rw [hup] at h; exact absurd h (by simp)
      rw [hup] at h
      simp only [exBind_ok] at h ⊢
      match m with
      | none =>
          simp only [exPure_eq_ok] at h
          injection h with h
          subst h
          rfl
      | some x =>
          exact hpt x l h hu
  | iso fwd bwd =>
      intro fl fm hpt s l h hu
      rw [constFunc] at h
      rw [constFunc]
      rcases hg : fwd s with e | v
      · rw [hg] at h; exact absurd h (by simp)
      rw [hg] at h
      simp only [exBind_ok] at h ⊢
      exact hpt v l h hu
  | comp a b iha ihb =>
      intro fl fm hpt s l h hu
      rw [constFunc] at h
      rw [constFunc]
      exact iha _ _ (fun x l' hx hux => ihb fl fm hpt x l' hx hux) s l h hu

/-- Instantiating the simulation at the actual `preview`/`to_list_of`
cargos: `preview` computes the flat `Just.__add__` combination of the
focus list that `to_list_of` computes, whenever the latter succeeds with
a combinable list. -/
theorem preview_eq_combineM (o : Optic) (s : PyVal) (l : List PyVal)
    (h : to_list_of o s = .ok l) (hu : Uniform l) :
    preview o s = combineM l := by
  have hk : o.isKind .fold = true := by
    by_contra hk
    rw [to_list_of, if_neg hk] at h
    exact absurd h (by simp)
  rw [to_list_of, if_pos hk] at h
  rw [preview, if_pos hk]
  refine constFunc_maybe_of_list o _ _ ?_ s l h hu
  intro x l' hx _
  injection hx with hx
  subst hx
  rfl

/-- C3: for every optic of kind Fold and every state in which it finds
zero foci (`to_list_of` returns the empty list without raising), `view`
raises ValueError while `preview` returns Nothing without raising. -/
theorem claim3_zero_foci_only_view_fails (o : Optic) (s : PyVal)
    (h : to_list_of o s = .ok []) :
    view o s = .error .valueError ∧ preview o s = .ok none := by
  have hp : preview o s = combineM [] :=
    preview_eq_combineM o s [] h uniform_nil
  have hk : o.isKind .fold = true := by
    by_contra hk
    rw [to_list_of, if_neg hk] at h
    exact absurd h (by simp)
  refine ⟨?_, hp⟩
  rw [view, if_pos hk, hp]
  rfl

theorem claim3_zero_foci_only_view_fails_witness :
    to_list_of eachTraversal (plist []) = .ok [] ∧
    (view eachTraversal (plist []) = .error .valueError ∧
      preview eachTraversal (plist []) = .ok none) :=
  ⟨by decide, claim3_zero_foci_only_view_fails eachTraversal (plist [])
    (by decide)⟩

/-- C5: for every optic of kind Fold, when `to_list_of` lists the foci in
traversal order and their left-to-right monoid combination
(`Just.__add__` over `typeclass.mappend`, i.e. `combineM`) succeeds,
`view` returns exactly that combination; in particular for exactly one
focus `view` returns that focus itself, and viewing the each-element
traversal over `[1, 2, 3]` returns their sum `6`. -/
theorem claim5_view_monoid_combination :
    (∀ (o : Optic) (s : PyVal) (l : List PyVal) (v : PyVal),
        to_list_of o s = .ok l → combineM l = .ok (some v) →
        view o s = .ok v) ∧
    (∀ (o : Optic) (s x : PyVal),
        to_list_of o s = .ok [x] → view o s = .ok x) ∧
    view eachTraversal (plist [pint 1, pint 2, pint 3]) = .ok (pint 6) := by
  have main : ∀ (o : Optic) (s : PyVal) (l : List PyVal) (v : PyVal),
      to_list_of o s = .ok l → combineM l = .ok (some v) →
      view o s = .ok v := by
    intro o s l v h1 h2
    have hk : o.isKind .fold = true := by
      by_contra hk
      rw [to_list_of, if_neg hk] at h1
      exact absurd h1 (by simp)
    have hp : preview o s = combineM l :=
      preview_eq_combineM o s l h1 (combineM_ok_uniform h2)
    rw [view, if_pos hk, hp, h2]
  refine ⟨main, fun o s x h => main o s [x] x h rfl, ?_⟩
  decide

theorem claim5_view_monoid_combination_witness :
    to_list_of eachTraversal (plist [pint 1, pint 2]) =
      .ok [pint 1, pint 2] ∧
    combineM [pint 1, pint 2] = .ok (some (pint 3)) ∧
    view eachTraversal (plist [pint 1, pint 2]) = .ok (pint 3) :=
  ⟨by decide, by decide,
    claim5_view_monoid_combination.1 eachTraversal
      (plist [pint 1, pint 2]) [pint 1, pint 2] (pint 3)
      (by decide) (by decide)⟩

/-! ### `RecurTraversal` (`optics/traversals.py`) -/

/-- A Python class that `RecurTraversal(cls)` can receive, as far as this
value universe reaches.  `isinstance` dispatches on the outermost
constructor; `Nothing` subclasses `Just`, so both `pmaybe` forms are
instances of `Just`. -/
inductive PyCls where
  | cNone
  | cInt
  | cStr
  | cBytes
  | cList
  | cTuple
  | cDict
  | cSet
  | cJust
  deriving DecidableEq, Repr

/-- `isinstance(state, cls)`. -/
def isInst : PyCls → PyVal → Bool
  | .cNone, pnone => true
  | .cInt, pint _ => true
  | .cStr, pstr _ => true
  | .cBytes, pbytes _ => true
  | .cList, plist _ => true
  | .cTuple, ptuple _ => true
  | .cDict, pdict _ => true
  | .cSet, pset _ => true
  | .cJust, pmaybe _ => true
  | _, _ => false

/-- `RecurTraversal.can_iter`: a length-one `str` is refused (iterating it
recurses forever); otherwise membership in the types with a registered
`from_iter` hook — `bytes`, `str`, `dict`, `list`, `set`, `tuple` from
`hooks/hook_funcs.py` plus `Just` from `maybe.py` (the optional
`pyrsistent` hooks never import here). -/
def can_iter : PyVal → Bool
  | pstr cs => decide (cs.length ≠ 1)
  | pbytes _ => true
  | plist _ => true
  | ptuple _ => true
  | pdict _ => true
  | pset _ => true
  | pmaybe _ => true
  | _ => false

mutual

/-- `RecurTraversal.can_hash`: `hash(state)` succeeds on `None`, `int`,
`str`, `bytes` and on tuples of hashables; `list`, `dict` and `set` raise
`TypeError`, and so does `Just`, which defines `__eq__` without `__hash__`
(its inherited `__hash__` is `None`). -/
def can_hash : PyVal → Bool
  | pnone => true
  | pint _ => true
  | pstr _ => true
  | pbytes _ => true
  | ptuple l => can_hashL l
  | plist _ => false
  | pdict _ => false
  | pset _ => false
  | pmaybe _ => false
termination_by structural a => a

def can_hashL : List PyVal → Bool
  | [] => true
  | x :: xs => can_hash x && can_hashL xs
termination_by structural a => a

end

mutual

/-- Termination measure for the recursion of `RecurTraversal.folder` and
the builders: every value weighs more than the list `hooks.to_iter` turns
it into.  A `dict` entry pays for the fresh `(key, value)` tuple wrapper
its item becomes, a multi-character `str` for the fresh single-character
strings, `bytes` for the fresh `int`s. -/
def pySizeV : PyVal → Nat
  | pnone => 1
  | pint _ => 1
  | pstr cs => if cs.length = 1 then 1 else 2 * cs.length + 2
  | pbytes bs => 2 * bs.length + 1
  | plist l => 1 + pySizeL l
  | ptuple l => 1 + pySizeL l
  | pdict ps => 1 + pySizeP ps
  | pset l => 1 + pySizeL l
  | pmaybe o => 1 + pySizeO o
termination_by structural a => a

def pySizeL : List PyVal → Nat
  | [] => 0
  | x :: xs => 1 + pySizeV x + pySizeL xs
termination_by structural a => a

def pySizeP : List (PyVal × PyVal) → Nat
  | [] => 0
  | (k, v) :: ps => 5 + pySizeV k + pySizeV v + pySizeP ps
termination_by structural a => a

def pySizeO : Option PyVal → Nat
  | none => 0
  | some x => 1 + pySizeV x
termination_by structural a => a

end

/-- `hooks.to_iter`, totalized to the values `RecurTraversal` recurses
through (`to_iter` raises only on `None` and `int`, which yield the empty
list here; `can_iter` refuses those anyway). -/
def toIterT : PyVal → List PyVal
  | pdict ps => ps.map fun p => ptuple [p.1, p.2]
  | plist xs => xs
  | ptuple xs => xs
  | pset xs => xs
  | pstr cs => cs.map fun c => pstr [c]
  | pbytes bs => bs.map fun b => pint (Int.ofNat b)
  | pmaybe (some x) => [x]
  | pmaybe none => []
  | pnone => []
  | pint _ => []

/-- `toIterT` agrees with the fallible `to_iter` hook wherever
`can_iter` holds. -/
theorem to_iter_eq_toIterT {s : PyVal} (h : can_iter s = true) :
    to_iter s = .ok (toIterT s) := by
  cases s with
  | pnone => simp [can_iter] at h
  | pint n => simp [can_iter] at h
  | pmaybe o => cases o <;> rfl
  | pstr cs => rfl
  | pbytes bs => rfl
  | plist l => rfl
  | ptuple l => rfl
  | pdict ps => rfl
  | pset l => rfl

theorem pySizeL_map_str (cs : List Char) :
    pySizeL (cs.map fun c => pstr [c]) = 2 * cs.length := by
  induction cs with
  | nil => rfl
  | cons c cs ih =>
      simp [pySizeL, pySizeV, ih]
      omega

theorem pySizeL_map_byte (bs : List Nat) :
    pySizeL (bs.map fun b => pint (Int.ofNat b)) = 2 * bs.length := by
  induction bs with
  | nil => rfl
  | cons b bs ih =>
      simp only [List.map_cons, pySizeL, pySizeV, List.length_cons, ih]
      omega

theorem pySizeL_map_item (ps : List (PyVal × PyVal)) :
    pySizeL (ps.map fun p => ptuple [p.1, p.2]) ≤ pySizeP ps := by
  induction ps with
  | nil => exact Nat.le_refl 0
  | cons p ps ih =>
      obtain ⟨k, v⟩ := p
      simp only [List.map_cons, pySizeL, pySizeV, pySizeP]
      omega

/-- The decrease `RecurTraversal`'s recursions live on: an iterable value
outweighs its iteration. -/
theorem toIterT_size_lt {s : PyVal} (h : can_iter s = true) :
    pySizeL (toIterT s) < pySizeV s := by
  cases s with
  | pstr cs =>
      have hne : cs.length ≠ 1 := by
        simpa [can_iter] using h
      simp only [toIterT, pySizeV, if_neg hne, pySizeL_map_str]
      omega
  | pbytes bs =>
      simp only [toIterT, pySizeV, pySizeL_map_byte]
      omega
  | plist l => simp [toIterT, pySizeV]
  | ptuple l => simp [toIterT, pySizeV]
  | pset l => simp [toIterT, pySizeV]
  | pdict ps =>
      have := pySizeL_map_item ps
      simp only [toIterT, pySizeV]
      omega
  | pmaybe o =>
      cases o <;> simp [toIterT, pySizeV, pySizeL, pySizeO]
  | pnone => simp [can_iter] at h
  | pint n => simp [can_iter] at h

mutual

/-- `RecurTraversal.folder`: an instance of `cls` is itself the single
focus; otherwise an iterable state folds each of its `hooks.to_iter`
elements in turn; everything else contributes nothing (no value of this
universe has a `__dict__` — the builtin types lack one and `Just` uses
`__slots__`). -/
def recurFolder (cls : PyCls) (s : PyVal) : List PyVal :=
  if isInst cls s then [s]
  else if h : can_iter s then recurFolderL cls (toIterT s)
  else []
termination_by pySizeV s
decreasing_by
  have := toIterT_size_lt h
  omega

def recurFolderL (cls : PyCls) (l : List PyVal) : List PyVal :=
  match l with
  | [] => []
  | x :: xs => recurFolder cls x ++ recurFolderL cls xs
termination_by pySizeL l
decreasing_by
  all_goals simp only [pySizeL]
  all_goals omega

end

mutual

/-- `RecurTraversal.build_object`: an unhashable state skips the cache; a
hashable one is looked up in `self._builder_cache` by Python equality
(structural equality here: the hashable values of this universe — `None`,
`int`, `str`, `bytes` and tuples of them — compare structurally) and, on a
miss, the freshly built result is stored under it.  The mutating cache
becomes an explicit association list threaded through every call. -/
def build_object (cls : PyCls) (state : PyVal) (values : List PyVal)
    (cache : List (PyVal × PyVal)) :
    Except PErr (PyVal × List (PyVal × PyVal)) :=
  if can_hash state then
    match lookupA cache state with
    | some r => .ok (r, cache)
    | none => do
        let (r, cache') ← build_object_no_cache cls state values cache
        .ok (r, assocSet cache' state r)
  else
    build_object_no_cache cls state values cache
termination_by (4 * pySizeV state + 2, 0)
decreasing_by
  all_goals apply Prod.Lex.left
  all_goals omega

/-- `RecurTraversal.build_object_no_cache`: an instance of `cls` is
replaced by its single value (`assert len(values) == 1` raises
otherwise); an iterable state is rebuilt element by element; nothing in
this universe has a `__dict__` (builtins lack one, `Just` uses
`__slots__`), so everything else is returned unchanged. -/
def build_object_no_cache (cls : PyCls) (state : PyVal)
    (values : List PyVal) (cache : List (PyVal × PyVal)) :
    Except PErr (PyVal × List (PyVal × PyVal)) :=
  if isInst cls state then
    match values with
    | [v] => .ok (v, cache)
    | _ => .error .assertionError
  else if h : can_iter state then
    build_from_iter cls state h values cache
  else
    .ok (state, cache)
termination_by (4 * pySizeV state + 1, 0)
decreasing_by
  all_goals apply Prod.Lex.left
  all_goals omega

/-- `RecurTraversal.build_from_iter`: walk `hooks.to_iter(state)`,
splitting `values` by each substate's focus count and rebuilding the
substates that hold at least one focus, then `assert len(values) == 0`
and reform the state with `hooks.from_iter`.  The hypothesis records
that this is only reached under `can_iter` (the recursion bottoms out on
it). -/
def build_from_iter (cls : PyCls) (state : PyVal)
    (h : can_iter state = true) (values : List PyVal)
    (cache : List (PyVal × PyVal)) :
    Except PErr (PyVal × List (PyVal × PyVal)) := do
  let (subs, rest, cache') ← build_iter_loop cls (toIterT state) values cache
  match rest with
  | [] => do
      let ns ← from_iter state subs
      .ok (ns, cache')
  | _ :: _ => .error .assertionError
termination_by (4 * pySizeV state, 0)
decreasing_by
  apply Prod.Lex.left
  have := toIterT_size_lt h
  omega

/-- The `for substate in hooks.to_iter(state)` loop inside
`build_from_iter`: yields the new substates, the values left over after
the splits, and the final cache. -/
def build_iter_loop (cls : PyCls) (subs : List PyVal)
    (values : List PyVal) (cache : List (PyVal × PyVal)) :
    Except PErr (List PyVal × List PyVal × List (PyVal × PyVal)) :=
  match subs with
  | [] => .ok ([], values, cache)
  | sub :: rest =>
      let count := (recurFolder cls sub).length
      if count = 0 then do
        let (ns, rem, cache') ← build_iter_loop cls rest values cache
        .ok (sub :: ns, rem, cache')
      else do
        let (nsub, cache') ← build_object cls sub (values.take count) cache
        let (ns, rem, cache'') ←
          build_iter_loop cls rest (values.drop count) cache'
        .ok (nsub :: ns, rem, cache'')
termination_by (4 * pySizeL subs + 3, 1)
decreasing_by
  all_goals apply Prod.Lex.left
  all_goals first
    | omega
    | (simp only [pySizeL]; omega)
    | (simp [pySizeL]; omega)

end

/-- `RecurTraversal.builder`: each call starts from an empty
`_builder_cache` (the method asserts it is empty and clears it after the
build); only the rebuilt state is returned. -/
def recurBuilder (cls : PyCls) (state : PyVal) (values : List PyVal) :
    Except PErr PyVal := do
  let (r, _) ← build_object cls state values []
  .ok r

mutual

/-- The cache-free rebuild the specification describes:
`build_object_no_cache` applied recursively, with no result reuse. -/
def build_object_nc (cls : PyCls) (state : PyVal) (values : List PyVal) :
    Except PErr PyVal :=
  if isInst cls state then
    match values with
    | [v] => .ok v
    | _ => .error .assertionError
  else if h : can_iter state then
    build_from_iter_nc cls state h values
  else
    .ok state
termination_by (4 * pySizeV state + 1, 0)
decreasing_by
  apply Prod.Lex.left
  omega

/-- Cache-free `build_from_iter`. -/
def build_from_iter_nc (cls : PyCls) (state : PyVal)
    (h : can_iter state = true) (values : List PyVal) :
    Except PErr PyVal := do
  let (subs, rest) ← build_iter_loop_nc cls (toIterT state) values
  match rest with
  | [] => from_iter state subs
  | _ :: _ => .error .assertionError
termination_by (4 * pySizeV state, 0)
decreasing_by
  apply Prod.Lex.left
  have := toIterT_size_lt h
  omega

/-- Cache-free substate loop. -/
def build_iter_loop_nc (cls : PyCls) (subs : List PyVal)
    (values : List PyVal) :
    Except PErr (List PyVal × List PyVal) :=
  match subs with
  | [] => .ok ([], values)
  | sub :: rest =>
      let count := (recurFolder cls sub).length
      if count = 0 then do
        let (ns, rem) ← build_iter_loop_nc cls rest values
        .ok (sub :: ns, rem)
      else do
        let nsub ← build_object_nc cls sub (values.take count)
        let (ns, rem) ← build_iter_loop_nc cls rest (values.drop count)
        .ok (nsub :: ns, rem)
termination_by (4 * pySizeL subs + 3, 1)
decreasing_by
  all_goals apply Prod.Lex.left
  all_goals first
    | omega
    | (simp only [pySizeL]; omega)
    | (simp [pySizeL]; omega)

end

/-- `RecurTraversal(cls)` as a functional optic: the cached builder the
source runs. -/
def recurTraversal (cls : PyCls) : Optic :=
  .traversal (fun s => .ok (recurFolder cls s)) (recurBuilder cls)

/-- The reference optic of the claim: same folder, cache-free rebuild. -/
def recurTraversalNC (cls : PyCls) : Optic :=
  .traversal (fun s => .ok (recurFolder cls s)) (build_object_nc cls)

/-- The builder-cache invariant: every cached entry is the cache-free
rebuild of its key from the values a pure per-focus function assigns to
that key's foci. -/
def CacheOK (cls : PyCls) (fn : PyVal → PyVal)
    (cache : List (PyVal × PyVal)) : Prop :=
  ∀ k r, (k, r) ∈ cache →
    build_object_nc cls k ((recurFolder cls k).map fn) = .ok r

theorem cacheOK_nil (cls : PyCls) (fn : PyVal → PyVal) :
    CacheOK cls fn [] := fun k r h => absurd h (List.not_mem_nil (k, r))

/-- Membership after a dict store: the new entry or an old one. -/
theorem mem_assocSet {ps : List (PyVal × PyVal)} {k v : PyVal}
    {p : PyVal × PyVal} (h : p ∈ assocSet ps k v) :
    p = (k, v) ∨ p ∈ ps := by
  induction ps with
  | nil =>
      rw [assocSet] at h
      left
      exact List.mem_singleton.mp h
  | cons q rest ih =>
      obtain ⟨k', v'⟩ := q
      rw [assocSet] at h
      by_cases hk : k' = k
      · rw [if_pos hk] at h
        rcases List.mem_cons.mp h with h | h
        · left; rw [h, hk]
        · right; exact List.mem_cons_of_mem _ h
      · rw [if_neg hk] at h
        rcases List.mem_cons.mp h with h | h
        · right; rw [h]; exact List.mem_cons_self _ _
        · rcases ih h with h | h
          · left; exact h
          · right; exact List.mem_cons_of_mem _ h

/-- Successful dict lookup finds a member. -/
theorem lookupA_mem {ps : List (PyVal × PyVal)} {k v : PyVal}
    (h : lookupA ps k = some v) : (k, v) ∈ ps := by
  induction ps with
  | nil => exact absurd h (by rw [lookupA]; simp)
  | cons q rest ih =>
      obtain ⟨k', v'⟩ := q
      rw [lookupA] at h
      by_cases hk : k' = k
      · rw [if_pos hk] at h
        injection h with h
        rw [← hk, ← h]
        exact List.mem_cons_self _ _
      · rw [if_neg hk] at h
        exact List.mem_cons_of_mem _ (ih h)

theorem recurFolder_inst {cls : PyCls} {s : PyVal}
    (h : isInst cls s = true) : recurFolder cls s = [s] := by
  rw [recurFolder, if_pos h]

theorem recurFolder_iter {cls : PyCls} {s : PyVal}
    (h1 : ¬ isInst cls s = true) (h2 : can_iter s = true) :
    recurFolder cls s = recurFolderL cls (toIterT s) := by
  rw [recurFolder, if_neg h1, dif_pos h2]

theorem recurFolder_leaf {cls : PyCls} {s : PyVal}
    (h1 : ¬ isInst cls s = true) (h2 : ¬ can_iter s = true) :
    recurFolder cls s = [] := by
  rw [recurFolder, if_neg h1, dif_neg h2]

theorem recurFolderL_nil (cls : PyCls) : recurFolderL cls [] = [] := by
  rw [recurFolderL]

theorem recurFolderL_cons (cls : PyCls) (x : PyVal) (xs : List PyVal) :
    recurFolderL cls (x :: xs) =
      recurFolder cls x ++ recurFolderL cls xs := by
  rw [recurFolderL]

theorem exMapM_ok_map (f : PyVal → PyVal) (xs : List PyVal) :
    exMapM (fun a => (Except.ok (f a) : Except PErr PyVal)) xs =
      .ok (xs.map f) := by
  induction xs with
  | nil => rfl
  | cons x xs ih => simp [ih]

mutual

/-- Cached `build_object` against the cache-free rebuild, when the values
come from a pure per-focus function: both fail with the same error, or
both return the same state and the cache invariant is preserved. -/
theorem build_object_agrees (cls : PyCls) (fn : PyVal → PyVal)
    (s : PyVal) (values : List PyVal) (cache : List (PyVal × PyVal))
    (hv : values = (recurFolder cls s).map fn)
    (hc : CacheOK cls fn cache) :
    (∃ e, build_object cls s values cache = .error e ∧
      build_object_nc cls s values = .error e) ∨
    (∃ r cache', build_object cls s values cache = .ok (r, cache') ∧
      build_object_nc cls s values = .ok r ∧ CacheOK cls fn cache') := by
  rw [build_object]
  by_cases hh : can_hash s = true
  · rw [if_pos hh]
    rcases hl : lookupA cache s with _ | r
    · rcases build_object_no_cache_agrees cls fn s values cache hv hc with
        ⟨e, h1, h2⟩ | ⟨r, cache', h1, h2, h3⟩
      · left
        exact ⟨e, by rw [h1]; rfl, h2⟩
      · right
        refine ⟨r, assocSet cache' s r, by rw [h1]; rfl, h2, ?_⟩
        intro k r' hp
        rcases mem_assocSet hp with hp | hp
        · injection hp with hk hr
          rw [hk, hr, ← hv]
          exact h2
        · exact h3 k r' hp
    · right
      refine ⟨r, cache, rfl, ?_, hc⟩
      rw [hv]
      exact hc s r (lookupA_mem hl)
  · rw [if_neg hh]
    exact build_object_no_cache_agrees cls fn s values cache hv hc
termination_by (4 * pySizeV s + 2, 0)
decreasing_by
  all_goals apply Prod.Lex.left
  all_goals omega

/-- Cached `build_object_no_cache` against the cache-free rebuild. -/
theorem build_object_no_cache_agrees (cls : PyCls) (fn : PyVal → PyVal)
    (s : PyVal) (values : List PyVal) (cache : List (PyVal × PyVal))
    (hv : values = (recurFolder cls s).map fn)
    (hc : CacheOK cls fn cache) :
    (∃ e, build_object_no_cache cls s values cache = .error e ∧
      build_object_nc cls s values = .error e) ∨
    (∃ r cache', build_object_no_cache cls s values cache = .ok (r, cache') ∧
      build_object_nc cls s values = .ok r ∧ CacheOK cls fn cache') := by
  rw [build_object_no_cache.eq_def, build_object_nc.eq_def]
  by_cases hi : isInst cls s = true
  · rw [if_pos hi, if_pos hi]
    rw [recurFolder_inst hi] at hv
    simp only [List.map_cons, List.map_nil] at hv
    subst hv
    right
    exact ⟨fn s, cache, rfl, rfl, hc⟩
  · rw [if_neg hi, if_neg hi]
    by_cases hit : can_iter s = true
    · rw [dif_pos hit, dif_pos hit]
      refine build_from_iter_agrees cls fn s hit values cache ?_ hc
      rw [hv, recurFolder_iter hi hit]
    · rw [dif_neg hit, dif_neg hit]
      right
      exact ⟨s, cache, rfl, rfl, hc⟩
termination_by (4 * pySizeV s + 1, 0)
decreasing_by
  all_goals apply Prod.Lex.left
  all_goals omega

/-- Cached `build_from_iter` against the cache-free rebuild. -/
theorem build_from_iter_agrees (cls : PyCls) (fn : PyVal → PyVal)
    (s : PyVal) (hit : can_iter s = true) (values : List PyVal)
    (cache : List (PyVal × PyVal))
    (hv : values = (recurFolderL cls (toIterT s)).map fn)
    (hc : CacheOK cls fn cache) :
    (∃ e, build_from_iter cls s hit values cache = .error e ∧
      build_from_iter_nc cls s hit values = .error e) ∨
    (∃ r cache', build_from_iter cls s hit values cache = .ok (r, cache') ∧
      build_from_iter_nc cls s hit values = .ok r ∧ CacheOK cls fn cache') := by
  rw [build_from_iter, build_from_iter_nc]
  rcases build_iter_loop_agrees cls fn (toIterT s) values cache hv hc with
    ⟨e, h1, h2⟩ | ⟨ns, cache', h1, h2, h3⟩
  · left
    exact ⟨e, by rw [h1]; rfl, by rw [h2]; rfl⟩
  · rw [h1, h2]
    rcases hfi : from_iter s ns with e | v
    · left
      exact ⟨e, by simp [hfi], by simp [hfi]⟩
    · right
      exact ⟨v, cache', by simp [hfi], by simp [hfi], h3⟩
termination_by (4 * pySizeV s, 0)
decreasing_by
  apply Prod.Lex.left
  have := toIterT_size_lt hit
  omega

/-- The cached substate loop against the cache-free loop: values produced
focus-by-focus by a pure function are consumed exactly, so no values are
left over on success. -/
theorem build_iter_loop_agrees (cls : PyCls) (fn : PyVal → PyVal)
    (subs : List PyVal) (values : List PyVal)
    (cache : List (PyVal × PyVal))
    (hv : values = (recurFolderL cls subs).map fn)
    (hc : CacheOK cls fn cache) :
    (∃ e, build_iter_loop cls subs values cache = .error e ∧
      build_iter_loop_nc cls subs values = .error e) ∨
    (∃ ns cache', build_iter_loop cls subs values cache =
        .ok (ns, [], cache') ∧
      build_iter_loop_nc cls subs values = .ok (ns, []) ∧
      CacheOK cls fn cache') :=
  match subs, hv with
  | [], hv => by
      rw [recurFolderL_nil] at hv
      simp only [List.map_nil] at hv
      subst hv
      right
      refine ⟨[], cache, ?_, ?_, hc⟩
      · simp only [build_iter_loop]
      · simp only [build_iter_loop_nc]
  | sub :: rest, hv => by
      simp only [build_iter_loop, build_iter_loop_nc]
      rw [recurFolderL_cons] at hv
      by_cases hcnt : (recurFolder cls sub).length = 0
      · rw [if_pos hcnt, if_pos hcnt]
        rw [List.length_eq_zero] at hcnt
        rw [hcnt, List.nil_append] at hv
        rcases build_iter_loop_agrees cls fn rest values cache hv hc with
          ⟨e, h1, h2⟩ | ⟨ns, cache', h1, h2, h3⟩
        · left
          exact ⟨e, by rw [h1]; rfl, by rw [h2]; rfl⟩
        · right
          exact ⟨sub :: ns, cache', by rw [h1]; rfl, by rw [h2]; rfl, h3⟩
      · rw [if_neg hcnt, if_neg hcnt]
        have htake : values.take (recurFolder cls sub).length =
            (recurFolder cls sub).map fn := by
          rw [hv, List.map_append]
          simpa using
            List.take_left ((recurFolder cls sub).map fn)
              ((recurFolderL cls rest).map fn)
        have hdrop : values.drop (recurFolder cls sub).length =
            (recurFolderL cls rest).map fn := by
          rw [hv, List.map_append]
          simpa using
            List.drop_left ((recurFolder cls sub).map fn)
              ((recurFolderL cls rest).map fn)
        rcases build_object_agrees cls fn sub
            (values.take (recurFolder cls sub).length) cache htake hc with
          ⟨e, h1, h2⟩ | ⟨nsub, cache₁, h1, h2, h3⟩
        · left
          exact ⟨e, by rw [h1]; rfl, by rw [h2]; rfl⟩
        · rcases build_iter_loop_agrees cls fn rest
              (values.drop (recurFolder cls sub).length) cache₁ hdrop h3 with
            ⟨e, h4, h5⟩ | ⟨ns, cache₂, h4, h5, h6⟩
          · left
            exact ⟨e, by rw [h1]; simp [h4], by rw [h2]; simp [h5]⟩
          · right
            exact ⟨nsub :: ns, cache₂, by rw [h1]; simp [h4],
              by rw [h2]; simp [h5], h6⟩
termination_by (4 * pySizeL subs + 3, 1)
decreasing_by
  all_goals apply Prod.Lex.left
  all_goals first
    | omega
    | (simp only [pySizeL]; omega)
    | (simp [pySizeL]; omega)

end

/-- `RecurTraversal.builder` (fresh empty cache) agrees with the
cache-free rebuild whenever the values come from a pure per-focus
function, errors included. -/
theorem recurBuilder_eq_nc (cls : PyCls) (fn : PyVal → PyVal)
    (s : PyVal) :
    recurBuilder cls s ((recurFolder cls s).map fn) =
      build_object_nc cls s ((recurFolder cls s).map fn) := by
  rw [recurBuilder]
  rcases build_object_agrees cls fn s ((recurFolder cls s).map fn) []
      rfl (cacheOK_nil cls fn) with ⟨e, h1, h2⟩ | ⟨r, cache', h1, h2, _⟩
  · rw [h1, h2]
    rfl
  · rw [h1, h2]
    rfl

/-- C7 (amended): for every class, state and pure function `fn`,
`RecurTraversal(cls).over(state, fn)` — whose builder caches rebuilt
results keyed by equality of hashable sub-states — returns the same
result as the optic whose builder is `build_object_no_cache` applied
recursively.  A pure function hands equal value slices to equal
sub-states, which is exactly what makes the cache reuse invisible; the
companion counterexample shows the claim's stronger \"even when
equal-but-distinct sub-states should receive different replacement
values\" reading is false. -/
theorem claim7_cached_over_eq_no_cache (cls : PyCls) (s : PyVal)
    (fn : PyVal → PyVal) :
    over (recurTraversal cls) s fn = over (recurTraversalNC cls) s fn := by
  rw [over, over, recurTraversal, recurTraversalNC]
  simp only [Optic.isKind, subkind]
  have hcond : (decide (OpticKind.setter = OpticKind.traversal) ||
      decide True || decide (OpticKind.setter = OpticKind.fold)) = true := by
    decide
  rw [if_pos hcond, if_pos hcond]
  rw [identityFunc, identityFunc]
  simp only [exBind_ok]
  rcases hfoci : recurFolder cls s with _ | ⟨x, xs⟩
  · rfl
  · simp only [exMapM_ok_map, exBind_ok]
    rw [← hfoci]
    have := recurBuilder_eq_nc cls fn s
    rw [hfoci] at this
    rw [← hfoci] at this
    exact this

/-- C7 counterexample: caching is not transparent for arbitrary
replacement-value assignments.  The state `[1, 1]` holds two equal `int`
sub-states; handing the builder the distinct replacement values
`[10, 20]` makes the cached build return `[10, 10]` — the second
occurrence reuses the cached rebuild of the first — while the cache-free
rebuild returns `[10, 20]`. -/
theorem claim7_counterexample :
    recurBuilder .cInt (plist [pint 1, pint 1]) [pint 10, pint 20] =
      .ok (plist [pint 10, pint 10]) ∧
    build_object_nc .cInt (plist [pint 1, pint 1]) [pint 10, pint 20] =
      .ok (plist [pint 10, pint 20]) := by
  constructor
  · simp [recurBuilder, build_object, build_object_no_cache,
      build_from_iter, build_iter_loop, recurFolder, recurFolderL,
      toIterT, can_hash, can_iter, isInst, lookupA, assocSet, from_iter]
  · simp [build_object_nc, build_from_iter_nc, build_iter_loop_nc,
      recurFolder, recurFolderL, toIterT, can_iter, isInst, from_iter]

end Lenses
